import Mathlib

/-!
Verification of the gcstool Golomb Compressed Set implementation.

The definitions below are a shallow embedding of `src/bitio.rs` and
`src/gcs.rs`.  Machine integers (`u64`, `u8`) are modelled as `Nat` with
explicit `% 2 ^ 64` (resp. `% 256`) where the Rust code can wrap, and
Rust panics (asserts, overflow in debug builds, division by zero) are
modelled as error results.  Loops that are not structurally recursive are
given explicit fuel; the fuel bounds are chosen so that exhaustion is
unreachable (each loop consumes input every iteration), which is noted at
each definition.
-/

/-- MSB-first list of the low `n` bits of `v`. -/
def natBits : Nat → Nat → List Bool
  | 0, _ => []
  | n + 1, v => v.testBit n :: natBits n v

/-- Value of an MSB-first bit list. -/
def bitsVal (l : List Bool) : Nat :=
  l.foldl (fun a b => 2 * a + b.toNat) 0

/-- Bits of one byte, MSB first (how `bitio.rs` reads and writes bytes). -/
def byteBits (b : Nat) : List Bool := natBits 8 b

/-- Bit stream of a byte list. -/
def bytesBits (bs : List Nat) : List Bool := bs.flatMap byteBits

@[simp] theorem natBits_length (n v : Nat) : (natBits n v).length = n := by
  induction n generalizing v with
  | zero => rfl
  | succ n ih => simp [natBits, ih]

@[simp] theorem natBits_zero_val (n : Nat) : natBits n 0 = List.replicate n false := by
  induction n with
  | zero => rfl
  | succ n ih => rw [natBits, ih, List.replicate_succ, Nat.zero_testBit]

theorem natBits_mod (n v : Nat) : natBits n (v % 2 ^ n) = natBits n v := by
  induction n generalizing v with
  | zero => rfl
  | succ n ih =>
    simp only [natBits]
    congr 1
    · simp [Nat.testBit_mod_two_pow]
    · have h1 : v % 2 ^ (n + 1) % 2 ^ n = v % 2 ^ n := by
        apply Nat.mod_mod_of_dvd
        exact pow_dvd_pow 2 (Nat.le_succ n)
      calc natBits n (v % 2 ^ (n + 1))
          = natBits n (v % 2 ^ (n + 1) % 2 ^ n) := (ih _).symm
        _ = natBits n (v % 2 ^ n) := by rw [h1]
        _ = natBits n v := ih v

theorem bitsVal_foldl_acc (l : List Bool) (a : Nat) :
    l.foldl (fun a b => 2 * a + b.toNat) a = a * 2 ^ l.length + bitsVal l := by
  induction l generalizing a with
  | nil => simp [bitsVal]
  | cons b t ih =>
    simp only [List.foldl_cons, List.length_cons, bitsVal]
    rw [ih (2 * a + b.toNat), ih (2 * 0 + b.toNat)]
    ring

theorem bitsVal_cons (b : Bool) (t : List Bool) :
    bitsVal (b :: t) = b.toNat * 2 ^ t.length + bitsVal t := by
  simp only [bitsVal, List.foldl_cons]
  rw [show 2 * 0 + b.toNat = b.toNat by omega]
  exact bitsVal_foldl_acc t b.toNat

theorem bitsVal_append (xs ys : List Bool) :
    bitsVal (xs ++ ys) = bitsVal xs * 2 ^ ys.length + bitsVal ys := by
  simp only [bitsVal, List.foldl_append]
  exact bitsVal_foldl_acc ys _

theorem bitsVal_lt (l : List Bool) : bitsVal l < 2 ^ l.length := by
  induction l with
  | nil => simp [bitsVal]
  | cons b t ih =>
    rw [bitsVal_cons]
    have : b.toNat ≤ 1 := Bool.toNat_le b
    calc b.toNat * 2 ^ t.length + bitsVal t
        ≤ 1 * 2 ^ t.length + bitsVal t := by
          exact Nat.add_le_add_right (Nat.mul_le_mul_right _ this) _
      _ < 2 ^ t.length + 2 ^ t.length := by omega
      _ = 2 ^ (t.length + 1) := by ring
      _ = 2 ^ (b :: t).length := by simp

theorem bitsVal_natBits (n v : Nat) : bitsVal (natBits n v) = v % 2 ^ n := by
  induction n generalizing v with
  | zero => simp [natBits, bitsVal, Nat.mod_one]
  | succ n ih =>
    rw [natBits, bitsVal_cons, natBits_length, ih]
    have hlow : v % 2 ^ (n + 1) % 2 ^ n = v % 2 ^ n := by
      apply Nat.mod_mod_of_dvd; exact pow_dvd_pow 2 (Nat.le_succ n)
    have hdiv : v % 2 ^ (n + 1) / 2 ^ n = (v / 2 ^ n) % 2 := by
      rw [pow_succ] at *
      exact Nat.mod_mul_right_div_self v (2 ^ n) 2
    have htb : (v.testBit n).toNat = v / 2 ^ n % 2 := by
      simp [Nat.testBit, Nat.shiftRight_eq_div_pow, Nat.and_one_is_mod]
      rcases Nat.mod_two_eq_zero_or_one (v / 2 ^ n) with h | h <;> simp [h]
    calc (v.testBit n).toNat * 2 ^ n + v % 2 ^ n
        = (v % 2 ^ (n + 1) / 2 ^ n) * 2 ^ n + v % 2 ^ (n + 1) % 2 ^ n := by
          rw [hlow, hdiv, htb]
      _ = v % 2 ^ (n + 1) := by
          rw [Nat.mul_comm]
          exact Nat.div_add_mod _ _

theorem mod_reduce_high (a b x y : Nat) (hy : y < 2 ^ b) :
    (x * 2 ^ b + y) % 2 ^ (a + b) = (x % 2 ^ a) * 2 ^ b + y := by
  have hxa : x % 2 ^ a < 2 ^ a := Nat.mod_lt _ (Nat.two_pow_pos _)
  have hmlt : (x % 2 ^ a) * 2 ^ b + y < 2 ^ (a + b) := by
    rw [pow_add]
    calc (x % 2 ^ a) * 2 ^ b + y < (x % 2 ^ a) * 2 ^ b + 2 ^ b := by omega
      _ = (x % 2 ^ a + 1) * 2 ^ b := by ring
      _ ≤ 2 ^ a * 2 ^ b := Nat.mul_le_mul_right _ (by omega)
  have h1 : x * 2 ^ b + y = (x / 2 ^ a) * 2 ^ (a + b) + ((x % 2 ^ a) * 2 ^ b + y) := by
    conv_lhs => rw [← Nat.div_add_mod x (2 ^ a)]
    rw [pow_add]
    ring
  rw [h1]
  rw [Nat.mul_comm (x / 2 ^ a) (2 ^ (a + b))]
  rw [Nat.mul_add_mod, Nat.mod_eq_of_lt hmlt]

theorem testBit_high (b x y k : Nat) (hy : y < 2 ^ b) :
    (x * 2 ^ b + y).testBit (b + k) = x.testBit k := by
  have hdiv : (x * 2 ^ b + y) / 2 ^ (b + k) = x / 2 ^ k := by
    rw [pow_add, ← Nat.div_div_eq_div_mul]
    congr 1
    rw [Nat.mul_comm x (2 ^ b), Nat.mul_add_div (Nat.two_pow_pos _)]
    simp [Nat.div_eq_of_lt hy]
  rw [Nat.testBit_to_div_mod, Nat.testBit_to_div_mod, hdiv]

theorem natBits_append (a b x y : Nat) (hx : x < 2 ^ a) (hy : y < 2 ^ b) :
    natBits (a + b) (x * 2 ^ b + y) = natBits a x ++ natBits b y := by
  induction a generalizing x with
  | zero =>
    have hx0 : x = 0 := Nat.lt_one_iff.mp hx
    subst hx0
    simp [natBits]
  | succ a ih =>
    have hxa : x % 2 ^ a < 2 ^ a := Nat.mod_lt _ (Nat.two_pow_pos _)
    have hsucc : a + 1 + b = (a + b) + 1 := by omega
    rw [hsucc]
    simp only [natBits, List.cons_append]
    congr 1
    · have hab : a + b = b + a := Nat.add_comm a b
      rw [hab]
      exact testBit_high b x y a hy
    · calc natBits (a + b) (x * 2 ^ b + y)
          = natBits (a + b) ((x * 2 ^ b + y) % 2 ^ (a + b)) := (natBits_mod _ _).symm
        _ = natBits (a + b) ((x % 2 ^ a) * 2 ^ b + y) := by rw [mod_reduce_high a b x y hy]
        _ = natBits a (x % 2 ^ a) ++ natBits b y := ih _ hxa
        _ = natBits a x ++ natBits b y := by rw [natBits_mod]

theorem testBit_of_lt (x n : Nat) (h : x < 2 ^ n) : x.testBit n = false := by
  rw [Nat.testBit_to_div_mod, Nat.div_eq_of_lt h]
  rfl

theorem lor_low (x n y : Nat) (hy : y < 2 ^ n) : (x * 2 ^ n) ||| y = x * 2 ^ n + y := by
  apply Nat.eq_of_testBit_eq
  intro k
  rw [Nat.testBit_lor]
  rcases Nat.lt_or_ge k n with hk | hk
  · have h1 : (x * 2 ^ n).testBit k = false := by
      rw [Nat.mul_comm, Nat.testBit_mul_pow_two]
      simp [Nat.not_le_of_lt hk]
    have h2 : (x * 2 ^ n + y).testBit k = ((x * 2 ^ n + y) % 2 ^ n).testBit k := by
      rw [Nat.testBit_mod_two_pow]
      simp [hk]
    have h3 : (x * 2 ^ n + y) % 2 ^ n = y := by
      rw [Nat.mul_comm x (2 ^ n), Nat.mul_add_mod]
      exact Nat.mod_eq_of_lt hy
    rw [h1, h2, h3]
    simp
  · have h1 : y.testBit k = false :=
      testBit_of_lt y k (Nat.lt_of_lt_of_le hy (Nat.pow_le_pow_right (by norm_num) hk))
    have h2 : (x * 2 ^ n + y).testBit k = x.testBit (k - n) := by
      have h := testBit_high n x y (k - n) hy
      rw [show n + (k - n) = k by omega] at h
      exact h
    have h3 : (x * 2 ^ n).testBit k = x.testBit (k - n) := by
      rw [Nat.mul_comm, Nat.testBit_mul_pow_two]
      simp [hk]
    rw [h1, h2, h3]
    simp

/-- State of the `bitio.rs` `BitWriter`: the byte accumulator `buffer` and the
count `unused` of still-free bits in the current output byte. -/
structure WState where
  buffer : Nat
  unused : Nat
deriving DecidableEq, Repr

/-- Initial `BitWriter` state (`BitWriter::new`). -/
def wInit : WState := ⟨0, 8⟩

/-- Loop of `BitWriter::write_bits` (the `while nbits_remaining >= self.unused`
loop followed by the final partial-buffer update).  `fuel` makes the recursion
structural; `write_bits` calls it with fuel 65, which exceeds the iteration
count for every `rem ≤ 64` because each iteration decreases `rem` by
`unused ≥ 1`.  The `% 2 ^ 64` models `u64` wrap-around of the shifts. -/
def wbLoop : Nat → Nat → Nat → WState → WState × List Nat
  | 0, _, _, st => (st, [])
  | fuel + 1, rem, value, st =>
    if st.unused ≤ rem then
      let buf := ((st.buffer <<< st.unused) % 2 ^ 64) ||| (value >>> (rem - st.unused))
      let r := wbLoop fuel (rem - st.unused) (value % 2 ^ (rem - st.unused)) ⟨0, 8⟩
      (r.1, buf % 256 :: r.2)
    else if 0 < rem then
      (⟨((st.buffer <<< rem) % 2 ^ 64) ||| value, st.unused - rem⟩, [])
    else
      (st, [])

/-- Models `BitWriter::write_bits(nbits, value)`: packs the low `nbits` bits of
`value` (the source masks with `MASKS[nbits]`, i.e. `% 2 ^ nbits`) MSB-first,
returning the new state and the emitted bytes.  The Rust function returns
`Ok(nbits)` and asserts `nbits ≤ 64`. -/
def writeBits (st : WState) (nbits value : Nat) : WState × List Nat :=
  wbLoop 65 nbits (value % 2 ^ nbits) st

/-- Models `BitWriter::flush`: if the current byte is partial, pads it with
`unused` zero bits on the low end and emits it (the source keeps the buffer
contents and only resets `unused` to 8).  Returns (state, bytes, padding). -/
def flushW (st : WState) : WState × List Nat × Nat :=
  if st.unused ≠ 8 then
    (⟨st.buffer, 8⟩, [((st.buffer <<< st.unused) % 2 ^ 64) % 256], st.unused)
  else
    (st, [], 0)

/-- Invariant of the `BitWriter` state: at least one bit free, at most eight,
and the accumulator holds exactly the `8 - unused` pending bits. -/
def WInv (st : WState) : Prop :=
  1 ≤ st.unused ∧ st.unused ≤ 8 ∧ st.buffer < 2 ^ (8 - st.unused)

/-- Bits buffered in the writer but not yet emitted as a byte. -/
def pendingBits (st : WState) : List Bool := natBits (8 - st.unused) st.buffer

theorem wInit_inv : WInv wInit := by
  refine ⟨?_, ?_, ?_⟩ <;> norm_num [wInit]

@[simp] theorem pendingBits_full (b : Nat) : pendingBits ⟨b, 8⟩ = [] := by
  simp [pendingBits, natBits]

theorem wbLoop_spec (fuel : Nat) : ∀ (rem value : Nat) (st : WState), WInv st →
    rem ≤ 64 → value < 2 ^ rem → rem + 1 ≤ fuel →
    WInv (wbLoop fuel rem value st).1 ∧
    bytesBits (wbLoop fuel rem value st).2 ++ pendingBits (wbLoop fuel rem value st).1
      = pendingBits st ++ natBits rem value ∧
    ∀ b ∈ (wbLoop fuel rem value st).2, b < 256 := by
  induction fuel with
  | zero => intro rem value st _ _ _ hf; omega
  | succ fuel ih =>
    intro rem value st hinv hrem hval hf
    obtain ⟨hu1, hu8, hbuf⟩ := hinv
    by_cases hc : st.unused ≤ rem
    · -- loop iteration: emit one byte, recurse on the remaining bits
      have hhi : value >>> (rem - st.unused) < 2 ^ st.unused := by
        rw [Nat.shiftRight_eq_div_pow]
        apply Nat.div_lt_of_lt_mul
        rw [← pow_add, show rem - st.unused + st.unused = rem by omega]
        exact hval
      have hlt8 : st.buffer * 2 ^ st.unused + value >>> (rem - st.unused) < 2 ^ 8 := by
        calc st.buffer * 2 ^ st.unused + value >>> (rem - st.unused)
            < st.buffer * 2 ^ st.unused + 2 ^ st.unused := by omega
          _ = (st.buffer + 1) * 2 ^ st.unused := by ring
          _ ≤ 2 ^ (8 - st.unused) * 2 ^ st.unused := Nat.mul_le_mul_right _ (by omega)
          _ = 2 ^ 8 := by rw [← pow_add]; congr 1; omega
      have hbuf_eq : ((st.buffer <<< st.unused) % 2 ^ 64) ||| (value >>> (rem - st.unused))
          = st.buffer * 2 ^ st.unused + value >>> (rem - st.unused) := by
        rw [Nat.shiftLeft_eq, Nat.mod_eq_of_lt (by
          calc st.buffer * 2 ^ st.unused
              ≤ st.buffer * 2 ^ st.unused + value >>> (rem - st.unused) := Nat.le_add_right _ _
            _ < 2 ^ 8 := hlt8
            _ ≤ 2 ^ 64 := by norm_num)]
        exact lor_low _ _ _ hhi
      have hbyte_eq : (((st.buffer <<< st.unused) % 2 ^ 64)
            ||| (value >>> (rem - st.unused))) % 256
          = st.buffer * 2 ^ st.unused + value >>> (rem - st.unused) := by
        rw [hbuf_eq]
        exact Nat.mod_eq_of_lt (by
          have h256 : (256 : Nat) = 2 ^ 8 := by norm_num
          rw [h256]
          exact hlt8)
      have hrem64 : rem - st.unused ≤ 64 := by omega
      have hvlt : value % 2 ^ (rem - st.unused) < 2 ^ (rem - st.unused) :=
        Nat.mod_lt _ (Nat.two_pow_pos _)
      have hfuel : (rem - st.unused) + 1 ≤ fuel := by omega
      have hrec := ih (rem - st.unused) (value % 2 ^ (rem - st.unused)) ⟨0, 8⟩
        ⟨by norm_num, by norm_num, by norm_num⟩ hrem64 hvlt hfuel
      have hres : wbLoop (fuel + 1) rem value st
          = ((wbLoop fuel (rem - st.unused) (value % 2 ^ (rem - st.unused)) ⟨0, 8⟩).1,
             (st.buffer * 2 ^ st.unused + value >>> (rem - st.unused))
               :: (wbLoop fuel (rem - st.unused) (value % 2 ^ (rem - st.unused)) ⟨0, 8⟩).2) := by
        simp only [wbLoop, if_pos hc]
        rw [hbyte_eq]
      rw [hres]
      refine ⟨hrec.1, ?_, ?_⟩
      · have hsplit : natBits rem value
            = natBits st.unused (value >>> (rem - st.unused))
              ++ natBits (rem - st.unused) (value % 2 ^ (rem - st.unused)) := by
          have hv : value >>> (rem - st.unused) * 2 ^ (rem - st.unused)
              + value % 2 ^ (rem - st.unused) = value := by
            rw [Nat.shiftRight_eq_div_pow, Nat.mul_comm]
            exact Nat.div_add_mod _ _
          have h := natBits_append st.unused (rem - st.unused)
            (value >>> (rem - st.unused)) (value % 2 ^ (rem - st.unused)) hhi hvlt
          rw [hv, show st.unused + (rem - st.unused) = rem by omega] at h
          exact h
        have hbb : byteBits (st.buffer * 2 ^ st.unused + value >>> (rem - st.unused))
            = pendingBits st ++ natBits st.unused (value >>> (rem - st.unused)) := by
          unfold byteBits pendingBits
          have h := natBits_append (8 - st.unused) st.unused st.buffer
            (value >>> (rem - st.unused)) hbuf hhi
          rw [show 8 - st.unused + st.unused = 8 by omega] at h
          exact h
        simp only [bytesBits, List.flatMap_cons]
        rw [List.append_assoc]
        have hrecflat :
            (wbLoop fuel (rem - st.unused) (value % 2 ^ (rem - st.unused)) ⟨0, 8⟩).2.flatMap byteBits
              ++ pendingBits (wbLoop fuel (rem - st.unused) (value % 2 ^ (rem - st.unused)) ⟨0, 8⟩).1
            = natBits (rem - st.unused) (value % 2 ^ (rem - st.unused)) := by
          have h := hrec.2.1
          simp only [bytesBits, pendingBits_full, List.nil_append] at h
          exact h
        rw [hrecflat, hbb, hsplit, List.append_assoc]
      · intro b hb
        rcases List.mem_cons.mp hb with h | h
        · subst h
          have h256 : (256 : Nat) = 2 ^ 8 := by norm_num
          rw [h256]
          exact hlt8
        · exact hrec.2.2 b h
    · push_neg at hc
      by_cases hr : 0 < rem
      · -- final partial write
        have hlt : st.buffer * 2 ^ rem + value < 2 ^ (8 - (st.unused - rem)) := by
          calc st.buffer * 2 ^ rem + value < st.buffer * 2 ^ rem + 2 ^ rem := by omega
            _ = (st.buffer + 1) * 2 ^ rem := by ring
            _ ≤ 2 ^ (8 - st.unused) * 2 ^ rem := Nat.mul_le_mul_right _ (by omega)
            _ = 2 ^ (8 - st.unused + rem) := by rw [← pow_add]
            _ = 2 ^ (8 - (st.unused - rem)) := by congr 1; omega
        have hbuf_eq : ((st.buffer <<< rem) % 2 ^ 64) ||| value = st.buffer * 2 ^ rem + value := by
          rw [Nat.shiftLeft_eq, Nat.mod_eq_of_lt (by
            calc st.buffer * 2 ^ rem ≤ st.buffer * 2 ^ rem + value := Nat.le_add_right _ _
              _ < 2 ^ (8 - (st.unused - rem)) := hlt
              _ ≤ 2 ^ 64 := Nat.pow_le_pow_right (by norm_num) (by omega))]
          exact lor_low _ _ _ hval
        have hres : wbLoop (fuel + 1) rem value st
            = (⟨st.buffer * 2 ^ rem + value, st.unused - rem⟩, []) := by
          simp only [wbLoop, if_neg (by omega : ¬ st.unused ≤ rem), if_pos hr]
          rw [hbuf_eq]
        rw [hres]
        refine ⟨⟨by show 1 ≤ st.unused - rem; omega,
          by show st.unused - rem ≤ 8; omega, hlt⟩, ?_, by simp⟩
        simp only [bytesBits, List.flatMap_nil, List.nil_append]
        unfold pendingBits
        have h := natBits_append (8 - st.unused) rem st.buffer value hbuf hval
        rw [show 8 - st.unused + rem = 8 - (st.unused - rem) by omega] at h
        exact h
      · have hr0 : rem = 0 := by omega
        subst hr0
        have hres : wbLoop (fuel + 1) 0 value st = (st, []) := by
          simp only [wbLoop, if_neg (by omega : ¬ st.unused ≤ 0)]
          simp
        rw [hres]
        refine ⟨⟨hu1, hu8, hbuf⟩, ?_, by simp⟩
        simp [bytesBits, natBits]

theorem writeBits_spec (st : WState) (nbits value : Nat) (hinv : WInv st) (hn : nbits ≤ 64) :
    WInv (writeBits st nbits value).1 ∧
    bytesBits (writeBits st nbits value).2 ++ pendingBits (writeBits st nbits value).1
      = pendingBits st ++ natBits nbits value ∧
    ∀ b ∈ (writeBits st nbits value).2, b < 256 := by
  have h := wbLoop_spec 65 nbits (value % 2 ^ nbits) st hinv hn
    (Nat.mod_lt _ (Nat.two_pow_pos _)) (by omega)
  unfold writeBits
  refine ⟨h.1, ?_, h.2.2⟩
  rw [h.2.1, natBits_mod]

theorem flushW_spec (st : WState) (hinv : WInv st) :
    bytesBits (flushW st).2.1 = pendingBits st ++ List.replicate (flushW st).2.2 false ∧
    (flushW st).2.2 + (pendingBits st).length = 8 * (flushW st).2.1.length ∧
    ∀ b ∈ (flushW st).2.1, b < 256 := by
  obtain ⟨hu1, hu8, hbuf⟩ := hinv
  by_cases h8 : st.unused = 8
  · have hres : flushW st = (st, [], 0) := by simp [flushW, h8]
    rw [hres]
    have hp : pendingBits st = [] := by
      unfold pendingBits
      rw [h8]
      simp [natBits]
    simp [bytesBits, hp]
  · have hlt : st.buffer * 2 ^ st.unused < 2 ^ 8 := by
      calc st.buffer * 2 ^ st.unused < 2 ^ (8 - st.unused) * 2 ^ st.unused :=
          (Nat.mul_lt_mul_right (Nat.two_pow_pos _)).mpr hbuf
        _ = 2 ^ 8 := by rw [← pow_add]; congr 1; omega
    have hm : ((st.buffer <<< st.unused) % 2 ^ 64) % 256 = st.buffer * 2 ^ st.unused := by
      rw [Nat.shiftLeft_eq, Nat.mod_eq_of_lt (lt_of_lt_of_le hlt (by norm_num))]
      exact Nat.mod_eq_of_lt (by
        have h256 : (256 : Nat) = 2 ^ 8 := by norm_num
        rw [h256]
        exact hlt)
    have hres : flushW st
        = (⟨st.buffer, 8⟩, [st.buffer * 2 ^ st.unused], st.unused) := by
      simp only [flushW, if_pos h8]
      rw [hm]
    rw [hres]
    refine ⟨?_, ?_, ?_⟩
    · simp only [bytesBits, List.flatMap_cons, List.flatMap_nil, List.append_nil]
      unfold byteBits pendingBits
      have h0 : (0 : Nat) < 2 ^ st.unused := Nat.two_pow_pos _
      have h := natBits_append (8 - st.unused) st.unused st.buffer 0 hbuf h0
      rw [Nat.add_zero, show 8 - st.unused + st.unused = 8 by omega] at h
      rw [h, natBits_zero_val]
    · simp only [pendingBits, natBits_length, List.length_cons, List.length_nil]
      omega
    · intro b hb
      rcases List.mem_cons.mp hb with h | h
      · subst h
        have h256 : (256 : Nat) = 2 ^ 8 := by norm_num
        rw [h256]
        exact hlt
      · simp at h

theorem lor_disjoint (a b n : Nat) (ha : a % 2 ^ n = 0) (hb : b < 2 ^ n) :
    a ||| b = a + b := by
  have hsplit : a = a / 2 ^ n * 2 ^ n := by
    conv_lhs => rw [← Nat.div_add_mod a (2 ^ n)]
    rw [ha, Nat.add_zero, Nat.mul_comm]
  rw [hsplit]
  exact lor_low _ _ _ hb

theorem natBits_split (u k v : Nat) (hk : k ≤ u) (hv : v < 2 ^ u) :
    natBits u v = natBits k (v >>> (u - k)) ++ natBits (u - k) (v % 2 ^ (u - k)) := by
  have hhi : v >>> (u - k) < 2 ^ k := by
    rw [Nat.shiftRight_eq_div_pow]
    apply Nat.div_lt_of_lt_mul
    rw [← pow_add, show u - k + k = u by omega]
    exact hv
  have hlo : v % 2 ^ (u - k) < 2 ^ (u - k) := Nat.mod_lt _ (Nat.two_pow_pos _)
  have h := natBits_append k (u - k) (v >>> (u - k)) (v % 2 ^ (u - k)) hhi hlo
  have hv' : v >>> (u - k) * 2 ^ (u - k) + v % 2 ^ (u - k) = v := by
    rw [Nat.shiftRight_eq_div_pow, Nat.mul_comm]
    exact Nat.div_add_mod _ _
  rw [hv', show k + (u - k) = u by omega] at h
  exact h

theorem natBits_take (u k v : Nat) (hk : k ≤ u) (hv : v < 2 ^ u) :
    (natBits u v).take k = natBits k (v >>> (u - k)) := by
  rw [natBits_split u k v hk hv, List.take_append_eq_append_take]
  simp [Nat.le_refl]

theorem natBits_drop (u k v : Nat) (hk : k ≤ u) (hv : v < 2 ^ u) :
    (natBits u v).drop k = natBits (u - k) (v % 2 ^ (u - k)) := by
  rw [natBits_split u k v hk hv, List.drop_append_eq_append_drop]
  simp

/-- State of the `bitio.rs` `BitReader` over a byte source, made explicit: the
index of the next byte to read from the source, the one-byte buffer, and the
count of its bits not consumed yet. -/
structure RState where
  pos : Nat
  buffer : Nat
  unused : Nat
deriving DecidableEq, Repr

/-- Loop of `BitReader::read_bits_u64` (the `while rbits > self.unused` loop
followed by the final buffer extraction).  `buffer &= MASKS[k]` is modelled as
`% 2 ^ k` (bitwise and with the low mask `2 ^ k - 1`), and `% 2 ^ 64` models
the `u64` wrap of the shift.  `none` is `read_exact` hitting end of input
(`UnexpectedEof`); fuel exhaustion is unreachable for the fuel used by
`readBits` (the first iteration may keep `rbits` when `unused = 0`; every
later iteration decreases it by 8). -/
def rbLoop (data : List Nat) : Nat → Nat → Nat → RState → Option (Nat × RState)
  | 0, _, _, _ => none
  | fuel + 1, ret, rbits, s =>
    if s.unused < rbits then
      let ret2 := ret ||| ((s.buffer <<< (rbits - s.unused)) % 2 ^ 64)
      match data[s.pos]? with
      | none => none
      | some b => rbLoop data fuel ret2 (rbits - s.unused) ⟨s.pos + 1, b, 8⟩
    else if 0 < rbits then
      some (ret ||| (s.buffer >>> (s.unused - rbits)),
            ⟨s.pos, s.buffer % 2 ^ (s.unused - rbits), s.unused - rbits⟩)
    else
      some (ret, s)

/-- Models `BitReader::read_bits_u64(nbits)` on a byte list; the source asserts
`nbits ≤ 64`. -/
def readBits (data : List Nat) (s : RState) (nbits : Nat) : Option (Nat × RState) :=
  rbLoop data (nbits + 3) 0 nbits s

/-- Models `BitReader::read_bit` (`read_bits_u64` with one bit). -/
def readBit (data : List Nat) (s : RState) : Option (Nat × RState) :=
  readBits data s 1

/-- Modelled from the spec: `BitReader::seek(SeekFrom::Start(bit_pos))` of the
generic seekable bit reader used by `gcs.rs` is not among the sources under
`src/` (`bitio.rs` holds the non-seeking variant of the reader).  Spec §4.1:
seek the byte source to `bit_pos / 8`, reset the buffer, and consume
`bit_pos mod 8` bits. -/
def seekBits (data : List Nat) (bitPos : Nat) : Option RState :=
  let s : RState := ⟨bitPos / 8, 0, 0⟩
  if bitPos % 8 = 0 then some s
  else
    match readBits data s (bitPos % 8) with
    | none => none
    | some r => some r.2

/-- Invariant of the reader state: the buffer holds exactly `unused` bits. -/
def RInv (s : RState) : Prop := s.unused ≤ 8 ∧ s.buffer < 2 ^ s.unused

/-- Bit stream still available to the reader: buffered bits then source bits. -/
def remStream (data : List Nat) (s : RState) : List Bool :=
  natBits s.unused s.buffer ++ bytesBits (data.drop s.pos)

theorem remStream_length_le (data : List Nat) (s : RState) (hinv : RInv s) :
    (remStream data s).length ≤ 8 + 8 * data.length := by
  unfold remStream bytesBits
  rw [List.length_append, natBits_length]
  have h1 : ((data.drop s.pos).flatMap byteBits).length = 8 * (data.drop s.pos).length := by
    induction data.drop s.pos with
    | nil => simp
    | cons b t ih => simp [List.flatMap_cons, ih, byteBits]; ring
  rw [h1]
  have h2 : (data.drop s.pos).length ≤ data.length := by
    rw [List.length_drop]; omega
  have := hinv.1
  omega

theorem rbLoop_spec (data : List Nat) (hdata : ∀ b ∈ data, b < 256) :
    ∀ (fuel rbits ret : Nat) (s : RState), RInv s →
    rbits ≤ 64 → ret % 2 ^ rbits = 0 → ret < 2 ^ 64 →
    rbits ≤ (remStream data s).length →
    rbits + 2 + (if s.unused = 0 then 1 else 0) ≤ fuel →
    ∃ s2, rbLoop data fuel ret rbits s
        = some (ret + bitsVal ((remStream data s).take rbits), s2) ∧
      RInv s2 ∧ remStream data s2 = (remStream data s).drop rbits := by
  intro fuel
  induction fuel with
  | zero => intro rbits ret s _ _ _ _ _ hf; omega
  | succ fuel ih =>
    intro rbits ret s hinv hr64 hret0 hretlt hlen hf
    obtain ⟨hu8, hbuf⟩ := hinv
    have hnb : (natBits s.unused s.buffer).length = s.unused := natBits_length _ _
    have hremlen : (remStream data s).length
        = s.unused + (bytesBits (data.drop s.pos)).length := by
      unfold remStream
      rw [List.length_append, hnb]
    by_cases hc : s.unused < rbits
    · -- loop iteration: absorb the buffer, read the next byte, recurse
      have hpos : s.pos < data.length := by
        by_contra hge
        push_neg at hge
        have hdrop : data.drop s.pos = [] := List.drop_eq_nil_of_le hge
        rw [hdrop] at hremlen
        simp [bytesBits] at hremlen
        omega
      obtain ⟨b, hb⟩ : ∃ b, data[s.pos]? = some b :=
        ⟨data[s.pos], List.getElem?_eq_getElem hpos⟩
      have hbval : data[s.pos] = b := by
        have h := List.getElem?_eq_getElem hpos
        rw [h] at hb
        exact Option.some_inj.mp hb
      have hblt : b < 256 := by
        apply hdata
        rw [← hbval]
        exact List.getElem_mem hpos
      have haddlt : s.buffer * 2 ^ (rbits - s.unused) < 2 ^ rbits := by
        calc s.buffer * 2 ^ (rbits - s.unused)
            < 2 ^ s.unused * 2 ^ (rbits - s.unused) :=
              (Nat.mul_lt_mul_right (Nat.two_pow_pos _)).mpr hbuf
          _ = 2 ^ rbits := by rw [← pow_add]; congr 1; omega
      have hshift : (s.buffer <<< (rbits - s.unused)) % 2 ^ 64
          = s.buffer * 2 ^ (rbits - s.unused) := by
        rw [Nat.shiftLeft_eq]
        exact Nat.mod_eq_of_lt
          (lt_of_lt_of_le haddlt (Nat.pow_le_pow_right (by norm_num) hr64))
      have hlor : ret ||| ((s.buffer <<< (rbits - s.unused)) % 2 ^ 64)
          = ret + s.buffer * 2 ^ (rbits - s.unused) := by
        rw [hshift]
        exact lor_disjoint _ _ rbits hret0 haddlt
      have hdvd : 2 ^ rbits ∣ ret := Nat.dvd_of_mod_eq_zero hret0
      have hstep : rbLoop data (fuel + 1) ret rbits s
          = rbLoop data fuel (ret + s.buffer * 2 ^ (rbits - s.unused))
              (rbits - s.unused) ⟨s.pos + 1, b, 8⟩ := by
        simp only [rbLoop, if_pos hc, hb]
        rw [hlor]
      have hinv2 : RInv ⟨s.pos + 1, b, 8⟩ := by
        refine ⟨by show (8:Nat) ≤ 8; omega, ?_⟩
        show b < 2 ^ 8
        have h256 : (2 : Nat) ^ 8 = 256 := by norm_num
        omega
      have hdropcons : data.drop s.pos = b :: data.drop (s.pos + 1) := by
        rw [List.drop_eq_getElem_cons hpos, hbval]
      have hdropu : (remStream data s).drop s.unused = bytesBits (data.drop s.pos) := by
        unfold remStream
        rw [List.drop_append_eq_append_drop,
          List.drop_eq_nil_of_le (by rw [hnb]),
          hnb, Nat.sub_self, List.drop_zero, List.nil_append]
      have hrem2 : remStream data ⟨s.pos + 1, b, 8⟩ = (remStream data s).drop s.unused := by
        rw [hdropu]
        unfold remStream
        rw [hdropcons]
        show natBits 8 b ++ bytesBits (List.drop (s.pos + 1) data)
            = bytesBits (b :: List.drop (s.pos + 1) data)
        simp [bytesBits, List.flatMap_cons, byteBits]
      have hret20 : (ret + s.buffer * 2 ^ (rbits - s.unused)) % 2 ^ (rbits - s.unused) = 0 := by
        rw [Nat.add_mul_mod_self_right]
        have hd : 2 ^ (rbits - s.unused) ∣ ret :=
          dvd_trans (pow_dvd_pow 2 (by omega)) hdvd
        obtain ⟨c, hcq⟩ := hd
        rw [hcq, Nat.mul_mod_right]
      have hret2lt : ret + s.buffer * 2 ^ (rbits - s.unused) < 2 ^ 64 := by
        obtain ⟨q, hq⟩ := hdvd
        have hqlt : q < 2 ^ (64 - rbits) := by
          by_contra hq2
          push_neg at hq2
          have hge : 2 ^ 64 ≤ ret := by
            calc (2:Nat) ^ 64 = 2 ^ rbits * 2 ^ (64 - rbits) := by
                  rw [← pow_add]; congr 1; omega
              _ ≤ 2 ^ rbits * q := Nat.mul_le_mul_left _ hq2
              _ = ret := hq.symm
          omega
        calc ret + s.buffer * 2 ^ (rbits - s.unused)
            < ret + 2 ^ rbits := by omega
          _ = 2 ^ rbits * (q + 1) := by rw [hq]; ring
          _ ≤ 2 ^ rbits * 2 ^ (64 - rbits) := Nat.mul_le_mul_left _ (by omega)
          _ = 2 ^ 64 := by rw [← pow_add]; congr 1; omega
      have hlen2 : rbits - s.unused ≤ (remStream data ⟨s.pos + 1, b, 8⟩).length := by
        rw [hrem2, List.length_drop]
        omega
      have hfuel2 : (rbits - s.unused) + 2
          + (if (RState.mk (s.pos + 1) b 8).unused = 0 then 1 else 0) ≤ fuel := by
        have h8 : (RState.mk (s.pos + 1) b 8).unused = 8 := rfl
        rw [h8, if_neg (by norm_num : ¬ (8:Nat) = 0), Nat.add_zero]
        by_cases hu0 : s.unused = 0
        · rw [if_pos hu0] at hf
          omega
        · rw [if_neg hu0] at hf
          have h1 : 1 ≤ s.unused := Nat.one_le_iff_ne_zero.mpr hu0
          omega
      obtain ⟨s3, heq3, hinv3, hrem3⟩ := ih (rbits - s.unused)
        (ret + s.buffer * 2 ^ (rbits - s.unused)) ⟨s.pos + 1, b, 8⟩
        hinv2 (by omega) hret20 hret2lt hlen2 hfuel2
      have hXlen : rbits - s.unused ≤ (bytesBits (data.drop s.pos)).length := by
        omega
      have htake : (remStream data s).take rbits
          = natBits s.unused s.buffer ++ (bytesBits (data.drop s.pos)).take (rbits - s.unused) := by
        unfold remStream
        rw [List.take_append_eq_append_take, hnb,
          List.take_of_length_le (by rw [hnb]; omega)]
      have htklen : ((bytesBits (data.drop s.pos)).take (rbits - s.unused)).length
          = rbits - s.unused := by
        rw [List.length_take]
        omega
      have hvals : bitsVal ((remStream data s).take rbits)
          = s.buffer * 2 ^ (rbits - s.unused)
            + bitsVal ((bytesBits (data.drop s.pos)).take (rbits - s.unused)) := by
        rw [htake, bitsVal_append, bitsVal_natBits, Nat.mod_eq_of_lt hbuf, htklen]
      refine ⟨s3, ?_, hinv3, ?_⟩
      · rw [hstep, heq3, hrem2, hdropu]
        have hveq : ret + s.buffer * 2 ^ (rbits - s.unused)
              + bitsVal ((bytesBits (data.drop s.pos)).take (rbits - s.unused))
            = ret + bitsVal ((remStream data s).take rbits) := by
          rw [hvals]
          ring
        rw [hveq]
      · rw [hrem3, hrem2, List.drop_drop]
        congr 1
        omega
    · push_neg at hc
      by_cases hr : 0 < rbits
      · -- final extraction from the buffer
        have hhilt : s.buffer >>> (s.unused - rbits) < 2 ^ rbits := by
          rw [Nat.shiftRight_eq_div_pow]
          apply Nat.div_lt_of_lt_mul
          rw [← pow_add, show s.unused - rbits + rbits = s.unused by omega]
          exact hbuf
        have hlor2 : ret ||| (s.buffer >>> (s.unused - rbits))
            = ret + s.buffer >>> (s.unused - rbits) :=
          lor_disjoint _ _ rbits hret0 hhilt
        have hres : rbLoop data (fuel + 1) ret rbits s
            = some (ret + s.buffer >>> (s.unused - rbits),
                ⟨s.pos, s.buffer % 2 ^ (s.unused - rbits), s.unused - rbits⟩) := by
          simp only [rbLoop, if_neg (by omega : ¬ s.unused < rbits), if_pos hr]
          rw [hlor2]
        have hval : bitsVal ((remStream data s).take rbits)
            = s.buffer >>> (s.unused - rbits) := by
          have htk : (remStream data s).take rbits
              = natBits rbits (s.buffer >>> (s.unused - rbits)) := by
            unfold remStream
            rw [List.take_append_eq_append_take, hnb,
              show rbits - s.unused = 0 from by omega, List.take_zero, List.append_nil]
            exact natBits_take s.unused rbits s.buffer hc hbuf
          rw [htk, bitsVal_natBits]
          exact Nat.mod_eq_of_lt hhilt
        refine ⟨⟨s.pos, s.buffer % 2 ^ (s.unused - rbits), s.unused - rbits⟩, ?_, ⟨?_, ?_⟩, ?_⟩
        · rw [hres, hval]
        · show s.unused - rbits ≤ 8
          omega
        · show s.buffer % 2 ^ (s.unused - rbits) < 2 ^ (s.unused - rbits)
          exact Nat.mod_lt _ (Nat.two_pow_pos _)
        · show natBits (s.unused - rbits) (s.buffer % 2 ^ (s.unused - rbits))
              ++ bytesBits (data.drop s.pos) = (remStream data s).drop rbits
          unfold remStream
          rw [List.drop_append_eq_append_drop, hnb,
            show rbits - s.unused = 0 from by omega, List.drop_zero,
            natBits_drop s.unused rbits s.buffer hc hbuf]
      · have hr0 : rbits = 0 := by omega
        subst hr0
        have hres : rbLoop data (fuel + 1) ret 0 s = some (ret, s) := by
          simp only [rbLoop, if_neg (by omega : ¬ s.unused < 0),
            if_neg (by omega : ¬ (0:Nat) < 0)]
        refine ⟨s, ?_, ⟨hu8, hbuf⟩, by simp⟩
        rw [hres]
        simp [bitsVal]

/-- Specification of `read_bits_u64`: with enough bits available it returns the
value of the first `nbits` bits of the remaining stream and consumes them. -/
theorem readBits_spec (data : List Nat) (hdata : ∀ b ∈ data, b < 256)
    (s : RState) (nbits : Nat) (hinv : RInv s) (hn : nbits ≤ 64)
    (hlen : nbits ≤ (remStream data s).length) :
    ∃ s2, readBits data s nbits
        = some (bitsVal ((remStream data s).take nbits), s2) ∧
      RInv s2 ∧ remStream data s2 = (remStream data s).drop nbits := by
  have h := rbLoop_spec data hdata (nbits + 3) nbits 0 s hinv hn
    (by simp) (Nat.two_pow_pos _) hlen (by split <;> omega)
  obtain ⟨s2, heq, hinv2, hrem2⟩ := h
  exact ⟨s2, by rw [readBits, heq, Nat.zero_add], hinv2, hrem2⟩

/-- Initial state of `BitReader::new()` (zero buffer, no unread bits) reading
from the start of the byte source. -/
def rInit : RState := ⟨0, 0, 0⟩

/-- Run a sequence of `write_bits(nbits, value)` calls; the byte sink receives
the emitted bytes in order. -/
def runWrites (st : WState) : List (Nat × Nat) → WState × List Nat
  | [] => (st, [])
  | nv :: rest =>
    let r1 := writeBits st nv.1 nv.2
    let r2 := runWrites r1.1 rest
    (r2.1, r1.2 ++ r2.2)

/-- Run a schedule of `read_bits_u64(nbits)` calls against a byte source. -/
def runReads (data : List Nat) (s : RState) : List Nat → Option (List Nat × RState)
  | [] => some ([], s)
  | n :: rest =>
    match readBits data s n with
    | none => none
    | some r =>
      match runReads data r.2 rest with
      | none => none
      | some r2 => some (r.1 :: r2.1, r2.2)

theorem runWrites_spec (ws : List (Nat × Nat)) :
    ∀ (st : WState), WInv st → (∀ nv ∈ ws, nv.1 ≤ 64) →
    WInv (runWrites st ws).1 ∧
    bytesBits (runWrites st ws).2 ++ pendingBits (runWrites st ws).1
      = pendingBits st ++ ws.flatMap (fun nv => natBits nv.1 nv.2) ∧
    ∀ b ∈ (runWrites st ws).2, b < 256 := by
  induction ws with
  | nil =>
    intro st hinv _
    refine ⟨hinv, ?_, by simp [runWrites]⟩
    simp [runWrites, bytesBits]
  | cons nv rest ih =>
    intro st hinv hws
    have h1 := writeBits_spec st nv.1 nv.2 hinv (hws nv (List.mem_cons_self _ _))
    have h2 := ih (writeBits st nv.1 nv.2).1 h1.1
      (fun x hx => hws x (List.mem_cons_of_mem _ hx))
    refine ⟨h2.1, ?_, ?_⟩
    · show bytesBits ((writeBits st nv.1 nv.2).2 ++ (runWrites (writeBits st nv.1 nv.2).1 rest).2)
          ++ pendingBits (runWrites (writeBits st nv.1 nv.2).1 rest).1
        = pendingBits st ++ (natBits nv.1 nv.2 ++ rest.flatMap (fun nv => natBits nv.1 nv.2))
      have hflat : bytesBits ((writeBits st nv.1 nv.2).2 ++ (runWrites (writeBits st nv.1 nv.2).1 rest).2)
          = bytesBits (writeBits st nv.1 nv.2).2
            ++ bytesBits (runWrites (writeBits st nv.1 nv.2).1 rest).2 := by
        simp [bytesBits, List.flatMap_append]
      rw [hflat, List.append_assoc, h2.2.1, ← List.append_assoc, h1.2.1, List.append_assoc]
    · intro b hb
      show b < 256
      rcases List.mem_append.mp hb with h | h
      · exact h1.2.2 b h
      · exact h2.2.2 b h

theorem runReads_spec (data : List Nat) (hdata : ∀ b ∈ data, b < 256) :
    ∀ (ws : List (Nat × Nat)) (suffix : List Bool) (s : RState), RInv s →
    (∀ nv ∈ ws, nv.1 ≤ 64 ∧ nv.2 < 2 ^ nv.1) →
    remStream data s = ws.flatMap (fun nv => natBits nv.1 nv.2) ++ suffix →
    ∃ s2, runReads data s (ws.map Prod.fst) = some (ws.map Prod.snd, s2) ∧
      RInv s2 ∧ remStream data s2 = suffix := by
  intro ws
  induction ws with
  | nil =>
    intro suffix s hinv _ hrem
    exact ⟨s, by simp [runReads], hinv, by simpa using hrem⟩
  | cons nv rest ih =>
    intro suffix s hinv hws hrem
    obtain ⟨hn64, hvlt⟩ := hws nv (List.mem_cons_self _ _)
    have hlen : nv.1 ≤ (remStream data s).length := by
      rw [hrem]
      simp only [List.flatMap_cons, List.length_append, natBits_length, List.append_assoc]
      omega
    obtain ⟨s2, heq, hinv2, hrem2⟩ := readBits_spec data hdata s nv.1 hinv hn64 hlen
    have htk : (remStream data s).take nv.1 = natBits nv.1 nv.2 := by
      rw [hrem]
      simp only [List.flatMap_cons, List.append_assoc]
      rw [List.take_append_eq_append_take, natBits_length,
        List.take_of_length_le (by rw [natBits_length]), Nat.sub_self, List.take_zero,
        List.append_nil]
    have hdp : remStream data s2 = rest.flatMap (fun nv => natBits nv.1 nv.2) ++ suffix := by
      rw [hrem2, hrem]
      simp only [List.flatMap_cons, List.append_assoc]
      rw [List.drop_append_eq_append_drop, natBits_length,
        List.drop_eq_nil_of_le (by rw [natBits_length]), Nat.sub_self, List.drop_zero,
        List.nil_append]
    obtain ⟨s3, heq3, hinv3, hrem3⟩ := ih suffix s2 hinv2
      (fun x hx => hws x (List.mem_cons_of_mem _ hx)) hdp
    refine ⟨s3, ?_, hinv3, hrem3⟩
    show runReads data s (nv.1 :: rest.map Prod.fst) = some (nv.2 :: rest.map Prod.snd, s3)
    have hval : bitsVal ((remStream data s).take nv.1) = nv.2 := by
      rw [htk, bitsVal_natBits]
      exact Nat.mod_eq_of_lt hvlt
    simp only [runReads]
    rw [heq, hval]
    show (match runReads data s2 (List.map Prod.fst rest) with
      | none => none
      | some r2 => some (nv.2 :: r2.1, r2.2)) = some (nv.2 :: List.map Prod.snd rest, s3)
    rw [heq3]

/-- C2: for every `nbits ∈ [0, 64]` and `value < 2 ^ nbits`, any interleaved
sequence of `BitWriter::write_bits(nbits, value)` calls followed by
`BitWriter::flush` produces bytes from which `BitReader::read_bits_u64`
recovers every value when issued the same schedule of bit counts. -/
theorem bitio_roundtrip (ws : List (Nat × Nat))
    (h : ∀ nv ∈ ws, nv.1 ≤ 64 ∧ nv.2 < 2 ^ nv.1) :
    ∃ s2, runReads ((runWrites wInit ws).2 ++ (flushW (runWrites wInit ws).1).2.1)
        rInit (ws.map Prod.fst)
      = some (ws.map Prod.snd, s2) := by
  have hw := runWrites_spec ws wInit wInit_inv (fun nv hnv => (h nv hnv).1)
  have hf := flushW_spec (runWrites wInit ws).1 hw.1
  have hdata : ∀ b ∈ (runWrites wInit ws).2 ++ (flushW (runWrites wInit ws).1).2.1, b < 256 := by
    intro b hb
    rcases List.mem_append.mp hb with hx | hx
    · exact hw.2.2 b hx
    · exact hf.2.2 b hx
  have hstream : remStream ((runWrites wInit ws).2 ++ (flushW (runWrites wInit ws).1).2.1) rInit
      = ws.flatMap (fun nv => natBits nv.1 nv.2)
        ++ List.replicate (flushW (runWrites wInit ws).1).2.2 false := by
    show natBits 0 0 ++ bytesBits (((runWrites wInit ws).2
        ++ (flushW (runWrites wInit ws).1).2.1).drop 0) = _
    rw [List.drop_zero]
    have happ : bytesBits ((runWrites wInit ws).2 ++ (flushW (runWrites wInit ws).1).2.1)
        = bytesBits (runWrites wInit ws).2 ++ bytesBits (flushW (runWrites wInit ws).1).2.1 := by
      simp [bytesBits, List.flatMap_append]
    rw [happ, hf.1]
    have h0 := hw.2.1
    have hpw : pendingBits wInit = [] := rfl
    rw [hpw, List.nil_append] at h0
    rw [show (natBits 0 0 : List Bool) = [] from rfl, List.nil_append,
      ← List.append_assoc, h0]
  have hrinv : RInv rInit := ⟨by norm_num [rInit], by norm_num [rInit]⟩
  obtain ⟨s2, heq, _, _⟩ := runReads_spec _ hdata ws
    (List.replicate (flushW (runWrites wInit ws).1).2.2 false) rInit hrinv h hstream
  exact ⟨s2, heq⟩

/-- Failure modes of the modelled operations.  `eof` is the
`io::ErrorKind::UnexpectedEof` of `read_exact`; `badMagic` is the "Not a GCS
file" error; `ioErr` is a failed seek; `overflow`, `divByZero`, `granZero`,
`encodeFail`, `subUnderflow` and `assertFail` are Rust panics or the explicit
`n*p must fit in u64` error; `fuelOut` is exhaustion of a model fuel bound
(unreachable for the bounds used, whose loops consume input each iteration). -/
inductive GErr where
  | eof
  | badMagic
  | ioErr
  | overflow
  | divByZero
  | granZero
  | encodeFail
  | subUnderflow
  | assertFail
  | fuelOut
deriving DecidableEq, Repr

/-- Codeword of the Golomb–Rice code for value `d` with parameter `p` and
suffix width `log2p`: `d / p` one bits, a zero bit, then `d % p` in `log2p`
bits MSB-first. -/
def cwBits (p log2p d : Nat) : List Bool :=
  List.replicate (d / p) true ++ [false] ++ natBits log2p (d % p)

theorem cwBits_length (p log2p d : Nat) :
    (cwBits p log2p d).length = d / p + 1 + log2p := by
  simp [cwBits]
  omega

/-- Models `GolombEncoder::encode(val)` from `gcs.rs`: the unary prefix is
emitted by the single call `write_bits(q + 1, (1 << (q + 1)) - 2)` and the
remainder by `write_bits(log2p, r)`.  For `q ≥ 63` the shift `1 << (q + 1)`
overflows `u64` (a Rust panic in debug builds; for `q + 1 > 64` the
`nbits ≤ 64` assertion of `write_bits` also fails), modelled as `none`: the
source does not chunk long unary runs.  `p = 0` makes `val / p` a division by
zero, also a panic. -/
def encodeG (p log2p : Nat) (st : WState) (val : Nat) : Option (WState × List Nat × Nat) :=
  if p = 0 then none
  else if 63 ≤ val / p then none
  else
    let w1 := writeBits st (val / p + 1) (2 ^ (val / p + 1) - 2)
    let w2 := writeBits w1.1 log2p (val % p)
    some (w2.1, w1.2 ++ w2.2, (val / p + 1) + log2p)

theorem natBits_unary (q : Nat) :
    natBits (q + 1) (2 ^ (q + 1) - 2) = List.replicate q true ++ [false] := by
  induction q with
  | zero => decide
  | succ q ih =>
    have hpos : (2 : Nat) ≤ 2 ^ (q + 1) := by
      calc (2 : Nat) = 2 ^ 1 := by norm_num
        _ ≤ 2 ^ (q + 1) := Nat.pow_le_pow_right (by norm_num) (by omega)
    have hval : 2 ^ (q + 2) - 2 = 2 ^ (q + 1) - 2 + 2 ^ (q + 1) := by
      have h2 : (2 : Nat) ^ (q + 2) = 2 ^ (q + 1) + 2 ^ (q + 1) := by ring
      omega
    show natBits (q + 1 + 1) (2 ^ (q + 2) - 2) = List.replicate (q + 1) true ++ [false]
    rw [natBits]
    have hhead : (2 ^ (q + 2) - 2).testBit (q + 1) = true := by
      rw [Nat.testBit_to_div_mod]
      have hdiv : (2 ^ (q + 2) - 2) / 2 ^ (q + 1) = 1 := by
        rw [hval, Nat.add_div_right _ (Nat.two_pow_pos _),
          Nat.div_eq_of_lt (by omega)]
      rw [hdiv]
      decide
    have htail : natBits (q + 1) (2 ^ (q + 2) - 2) = natBits (q + 1) (2 ^ (q + 1) - 2) := by
      rw [← natBits_mod (q + 1) (2 ^ (q + 2) - 2)]
      congr 1
      rw [hval, Nat.add_mod_right]
      exact Nat.mod_eq_of_lt (by omega)
    rw [hhead, htail, ih, List.replicate_succ, List.cons_append]

theorem encodeG_spec (p log2p : Nat) (st : WState) (val : Nat)
    (hinv : WInv st) (hp : p ≠ 0) (hq : val / p < 63) (hl : log2p ≤ 64)
    (hr : val % p < 2 ^ log2p) :
    ∃ st2 bs, encodeG p log2p st val = some (st2, bs, (val / p + 1) + log2p) ∧
      WInv st2 ∧
      bytesBits bs ++ pendingBits st2 = pendingBits st ++ cwBits p log2p val ∧
      ∀ b ∈ bs, b < 256 := by
  have h1 := writeBits_spec st (val / p + 1) (2 ^ (val / p + 1) - 2) hinv (by omega)
  have h2 := writeBits_spec (writeBits st (val / p + 1) (2 ^ (val / p + 1) - 2)).1
    log2p (val % p) h1.1 hl
  refine ⟨(writeBits (writeBits st (val / p + 1) (2 ^ (val / p + 1) - 2)).1 log2p (val % p)).1,
    (writeBits st (val / p + 1) (2 ^ (val / p + 1) - 2)).2
      ++ (writeBits (writeBits st (val / p + 1) (2 ^ (val / p + 1) - 2)).1 log2p (val % p)).2,
    ?_, h2.1, ?_, ?_⟩
  · simp only [encodeG, if_neg hp, if_neg (by omega : ¬ 63 ≤ val / p)]
  · have happ : bytesBits ((writeBits st (val / p + 1) (2 ^ (val / p + 1) - 2)).2
        ++ (writeBits (writeBits st (val / p + 1) (2 ^ (val / p + 1) - 2)).1 log2p (val % p)).2)
        = bytesBits (writeBits st (val / p + 1) (2 ^ (val / p + 1) - 2)).2
          ++ bytesBits (writeBits (writeBits st (val / p + 1) (2 ^ (val / p + 1) - 2)).1
            log2p (val % p)).2 := by
      simp [bytesBits, List.flatMap_append]
    rw [happ, List.append_assoc, h2.2.1, ← List.append_assoc, h1.2.1]
    unfold cwBits
    rw [natBits_unary, ← natBits_mod log2p (val % p), Nat.mod_eq_of_lt hr]
    simp [List.append_assoc]
  · intro b hb
    rcases List.mem_append.mp hb with h | h
    · exact h1.2.2 b h
    · exact h2.2.2 b h

/-- Inner loop of `GCSReader::exists`: `while read_bit == 1 { last += p }`.
The `u64` overflow of `last += p` (a debug-build panic) is `.overflow`. -/
def unaryAdd (data : List Nat) (p : Nat) : Nat → Nat → RState → Except GErr (Nat × RState)
  | 0, _, _ => .error .fuelOut
  | fuel + 1, last, s =>
    match readBit data s with
    | none => .error .eof
    | some r =>
      if r.1 = 1 then
        if 2 ^ 64 ≤ last + p then .error .overflow
        else unaryAdd data p fuel (last + p) r.2
      else .ok (last, r.2)

/-- Outer loop of `GCSReader::exists`: while `last < h` decode one codeword
(unary run then `log2p` suffix bits) and add it to `last`; on exit return
`last == h`.  The fuel exceeds the iteration count: every iteration consumes
at least one bit of the finite stream. -/
def scanLoop (data : List Nat) (p log2p : Nat) : Nat → Nat → Nat → RState → Except GErr Bool
  | 0, _, _, _ => .error .fuelOut
  | fuel + 1, last, h, s =>
    if last < h then
      match unaryAdd data p (8 * data.length + 16) last s with
      | .error e => .error e
      | .ok r =>
        match readBits data r.2 log2p with
        | none => .error .eof
        | some r2 =>
          if 2 ^ 64 ≤ r.1 + r2.1 then .error .overflow
          else scanLoop data p log2p fuel (r.1 + r2.1) h r2.2
    else .ok (decide (last = h))

/-- One Golomb codeword decoded at absolute bit position `bitPos`, following
the decode loop of `GCSReader::exists` (used to state the index-offset
convention): seek, add `p` per leading one bit, stop at the zero bit, read
`log2p` suffix bits. -/
def decodeOneAt (data : List Nat) (p log2p bitPos : Nat) : Except GErr Nat :=
  match seekBits data bitPos with
  | none => .error .ioErr
  | some s =>
    match unaryAdd data p (8 * data.length + 16) 0 s with
    | .error e => .error e
    | .ok r =>
      match readBits data r.2 log2p with
      | none => .error .eof
      | some r2 =>
        if 2 ^ 64 ≤ r.1 + r2.1 then .error .overflow
        else .ok (r.1 + r2.1)

theorem readBit_spec (data : List Nat) (hdata : ∀ b ∈ data, b < 256)
    (s : RState) (hinv : RInv s) (b : Bool) (rest : List Bool)
    (hrem : remStream data s = b :: rest) :
    ∃ s2, readBit data s = some (b.toNat, s2) ∧ RInv s2 ∧ remStream data s2 = rest := by
  have hlen : 1 ≤ (remStream data s).length := by rw [hrem]; simp
  obtain ⟨s2, heq, hinv2, hrem2⟩ := readBits_spec data hdata s 1 hinv (by norm_num) hlen
  refine ⟨s2, ?_, hinv2, ?_⟩
  · rw [readBit, heq, hrem]
    have hb : bitsVal ((b :: rest).take 1) = b.toNat := by
      simp [bitsVal]
    rw [show (b :: rest).take 1 = [b] from rfl] at hb ⊢
    rw [hb]
  · rw [hrem2, hrem]
    rfl

theorem unaryAdd_spec (data : List Nat) (hdata : ∀ b ∈ data, b < 256) (p : Nat) :
    ∀ (q fuel last : Nat) (s : RState) (suffix : List Bool), RInv s →
    remStream data s = List.replicate q true ++ [false] ++ suffix →
    last + q * p < 2 ^ 64 → q + 2 ≤ fuel →
    ∃ s2, unaryAdd data p fuel last s = .ok (last + q * p, s2) ∧
      RInv s2 ∧ remStream data s2 = suffix := by
  intro q
  induction q with
  | zero =>
    intro fuel last s suffix hinv hrem hov hf
    obtain ⟨fuel, rfl⟩ : ∃ f, fuel = f + 1 := ⟨fuel - 1, by omega⟩
    simp only [List.replicate, List.nil_append] at hrem
    obtain ⟨s2, heq, hinv2, hrem2⟩ := readBit_spec data hdata s hinv false suffix hrem
    refine ⟨s2, ?_, hinv2, hrem2⟩
    simp only [unaryAdd]
    rw [heq]
    norm_num
  | succ q ih =>
    intro fuel last s suffix hinv hrem hov hf
    obtain ⟨fuel, rfl⟩ : ∃ f, fuel = f + 1 := ⟨fuel - 1, by omega⟩
    rw [List.replicate_succ, List.cons_append, List.cons_append] at hrem
    obtain ⟨s2, heq, hinv2, hrem2⟩ := readBit_spec data hdata s hinv true
      (List.replicate q true ++ [false] ++ suffix) hrem
    have hov1 : ¬ 2 ^ 64 ≤ last + p := by
      have : last + p ≤ last + (q + 1) * p := by
        have : p ≤ (q + 1) * p := Nat.le_mul_of_pos_left p (by omega)
        omega
      omega
    have hov2 : last + p + q * p < 2 ^ 64 := by
      have h1 : last + p + q * p = last + (q + 1) * p := by ring
      omega
    obtain ⟨s3, heq3, hinv3, hrem3⟩ := ih fuel (last + p) s2
      suffix hinv2 hrem2 hov2 (by omega)
    refine ⟨s3, ?_, hinv3, hrem3⟩
    have hstep : unaryAdd data p (fuel + 1) last s
        = unaryAdd data p fuel (last + p) s2 := by
      simp only [unaryAdd]
      rw [heq]
      norm_num [hov1]
      intro hcon
      exfalso
      apply hov1
      calc (2 : Nat) ^ 64 = 18446744073709551616 := by norm_num
        _ ≤ last + p := hcon
    rw [hstep, heq3]
    have hgoal : last + p + q * p = last + (q + 1) * p := by ring
    rw [hgoal]

theorem decode_step (data : List Nat) (hdata : ∀ b ∈ data, b < 256)
    (p log2p d last : Nat) (s : RState) (suffix : List Bool)
    (hinv : RInv s) (hrem : remStream data s = cwBits p log2p d ++ suffix)
    (hdr : d % p < 2 ^ log2p) (hl64 : log2p ≤ 64) (hlast : last + d < 2 ^ 64) :
    ∃ s2, unaryAdd data p (8 * data.length + 16) last s
        = .ok (last + p * (d / p), s2) ∧
      ∃ s3, readBits data s2 log2p = some (d % p, s3) ∧
        RInv s3 ∧ remStream data s3 = suffix ∧
        last + p * (d / p) + d % p = last + d := by
  have hqd : p * (d / p) ≤ d := Nat.mul_div_le d p
  have hrem1 : remStream data s
      = List.replicate (d / p) true ++ [false] ++ (natBits log2p (d % p) ++ suffix) := by
    rw [hrem]
    unfold cwBits
    simp [List.append_assoc]
  have hfuel : d / p + 2 ≤ 8 * data.length + 16 := by
    have hlb : d / p ≤ (remStream data s).length := by
      rw [hrem1]
      simp only [List.length_append, List.length_replicate]
      omega
    have hub := remStream_length_le data s hinv
    omega
  obtain ⟨s2, heq2, hinv2, hrem2⟩ := unaryAdd_spec data hdata p (d / p)
    (8 * data.length + 16) last s (natBits log2p (d % p) ++ suffix) hinv hrem1
    (by have : d / p * p ≤ d := Nat.div_mul_le_self d p
        omega) hfuel
  have hlen3 : log2p ≤ (remStream data s2).length := by
    rw [hrem2]
    simp only [List.length_append, natBits_length]
    omega
  obtain ⟨s3, heq3, hinv3, hrem3⟩ := readBits_spec data hdata s2 log2p hinv2 hl64 hlen3
  have htk : (remStream data s2).take log2p = natBits log2p (d % p) := by
    rw [hrem2, List.take_append_eq_append_take, natBits_length,
      List.take_of_length_le (by rw [natBits_length]), Nat.sub_self, List.take_zero,
      List.append_nil]
  have hdp : remStream data s3 = suffix := by
    rw [hrem3, hrem2, List.drop_append_eq_append_drop, natBits_length,
      List.drop_eq_nil_of_le (by rw [natBits_length]), Nat.sub_self, List.drop_zero,
      List.nil_append]
  have hmulcomm : last + d / p * p = last + p * (d / p) := by ring
  rw [hmulcomm] at heq2
  refine ⟨s2, heq2, s3, ?_, hinv3, hdp, ?_⟩
  · rw [heq3, htk, bitsVal_natBits, Nat.mod_eq_of_lt hdr]
  · have := Nat.div_add_mod d p
    omega

/-- Adjacent deduplication, as `Vec::dedup`: removes consecutive duplicates. -/
def dedupAdj : List Nat → List Nat
  | [] => []
  | [a] => [a]
  | a :: b :: t => if a = b then dedupAdj (b :: t) else a :: dedupAdj (b :: t)

/-- Models the `par_sort_unstable` + `dedup` stages of `finish`.  The sort is
modelled by insertion sort: on `u64` keys the output of any (unstable) sort is
the unique sorted permutation, equal keys being identical. -/
def sortDedup (l : List Nat) : List Nat := dedupAdj (List.insertionSort (· ≤ ·) l)

/-- Output of `GCSBuilder::finish`: payload bytes, the recorded index, and the
footer fields.  `n` is `self.n`, reassigned to `values.len()` *before*
deduplication and never updated afterwards. -/
structure GCSFile where
  payload : List Nat
  index : List (Nat × Nat)
  n : Nat
  p : Nat
  endOfData : Nat
deriving DecidableEq, Repr

/-- State of `GCSBuilder`: the byte sink and the fields of the struct. -/
structure GCSBuilder where
  io : List Nat
  n : Nat
  p : Nat
  index_granularity : Nat
  values : List Nat
deriving DecidableEq, Repr

/-- Models `GCSBuilder::new(io, n, p, index_granularity)`: the only check is
that `n * p` fits in `u64` (`checked_mul`); the granularity and `p` are not
validated. -/
def newGCSBuilder (io : List Nat) (n p index_granularity : Nat) : Option GCSBuilder :=
  if n * p < 2 ^ 64 then some ⟨io, n, p, index_granularity, []⟩ else none

/-- Models `GCSBuilder::add(value)`: push the raw, unreduced value. -/
def addValue (b : GCSBuilder) (value : Nat) : GCSBuilder :=
  { b with values := b.values ++ [value] }

/-- Encode loop of `GCSBuilder::finish` over the sorted, deduplicated values:
delta-encode each value, accumulate `total_bits`, and push `(v, total_bits)`
onto the index when `index_granularity > 0 && i > 0 && i % g == 0` (after the
bits of item `i` are counted).  `subUnderflow` models the `u64` underflow
panic of `v - last` (unreachable: input sorted); `overflow` the `total_bits`
accumulation. -/
def encodeAll (p log2p g : Nat) : List Nat → Nat → Nat → Nat → WState →
    List (Nat × Nat) → Except GErr (List Nat × WState × Nat × List (Nat × Nat))
  | [], _, _, totalBits, st, index => .ok ([], st, totalBits, index)
  | v :: rest, i, last, totalBits, st, index =>
    if v < last then .error .subUnderflow
    else
      match encodeG p log2p st (v - last) with
      | none => .error .encodeFail
      | some r =>
        if 2 ^ 64 ≤ totalBits + r.2.2 then .error .overflow
        else
          match encodeAll p log2p g rest (i + 1) v (totalBits + r.2.2) r.1
              (if 0 < g ∧ 0 < i ∧ i % g = 0
                then index ++ [(v, totalBits + r.2.2)] else index) with
          | .error e => .error e
          | .ok r2 => .ok (r.2.1 ++ r2.1, r2.2)

/-- Fuel-driven ceiling base-2 logarithm: `clog2Aux` halves (rounding up)
until the argument drops to `1` or below, counting the steps. -/
def clog2Aux : Nat → Nat → Nat
  | 0, _ => 0
  | fuel + 1, n => if n ≤ 1 then 0 else clog2Aux fuel ((n + 1) / 2) + 1

/-- `Nat.clog 2 p` computed by structural recursion, so the kernel can
evaluate it.  The program instead computes its suffix width as the float
expression `(p as f64).log2().ceil().trunc() as u8`; the two agree for
`p ≤ 2 ^ 46` (the `u64 → f64` cast is exact below `2 ^ 53`, and for a result
below 64 a `log2` that is exact on powers of two and within 1 ulp elsewhere
cannot cross an integer: the exact `log2 p` is at distance at least `2 ^ 46`
reciprocal from the nearest integer it must not reach), but they DIVERGE for
some larger `p`: at `p = 2 ^ 53 + 1` the cast rounds half-to-even down to
`2 ^ 53` and the float expression yields exactly `53`, while
`Nat.clog 2 p = 54`.  Theorems that depend on the width therefore carry a
`p ≤ 2 ^ 46` hypothesis, and the width-abstracted `finishBL`/`initReaderL`
pipeline below expresses the program's behaviour at other widths. -/
def clog2 (p : Nat) : Nat := clog2Aux p p

theorem clog2Aux_eq_clog (fuel : Nat) :
    ∀ n, n ≤ fuel → clog2Aux fuel n = Nat.clog 2 n := by
  induction fuel with
  | zero =>
    intro n hn
    have h0 : n = 0 := by omega
    subst h0
    simp [clog2Aux]
  | succ f ih =>
    intro n hn
    show (if n ≤ 1 then 0 else clog2Aux f ((n + 1) / 2) + 1) = Nat.clog 2 n
    by_cases h1 : n ≤ 1
    · rw [if_pos h1, Nat.clog_of_right_le_one h1]
    · rw [if_neg h1, Nat.clog_of_two_le (by norm_num) (by omega),
        show (n + 2 - 1) / 2 = (n + 1) / 2 from by omega,
        ih ((n + 1) / 2) (by omega)]

theorem clog2_eq_clog (p : Nat) : clog2 p = Nat.clog 2 p :=
  clog2Aux_eq_clog p p (le_refl p)

/-- Models `GCSBuilder::finish` (the `Status` argument only prints progress):
reassign `n := values.len()`, check `n * p` (`checked_mul`), normalise every
value mod `n * p` (a division-by-zero panic when `n * p = 0` and values
exist), sort, dedup, compute `index_points = len / g` (division by zero when
`g = 0`), Golomb-encode the delta stream recording the index, flush, assert
byte alignment, and emit index and footer.  `log2p` is the float
`(p as f64).log2().ceil() as u8`, instantiated here as `clog2 p`, which
matches the float for `p ≤ 2 ^ 46` but not for every `p` (see `clog2` and
`finishBL`). -/
def finishB (b : GCSBuilder) : Except GErr GCSFile :=
  let n := b.values.length
  if 2 ^ 64 ≤ n * b.p then .error .overflow
  else if n * b.p = 0 ∧ b.values ≠ [] then .error .divByZero
  else if b.index_granularity = 0 then .error .granZero
  else
    match encodeAll b.p (clog2 b.p) b.index_granularity
        (sortDedup (b.values.map (· % (n * b.p)))) 0 0 0 wInit [] with
    | .error e => .error e
    | .ok r =>
      if (r.2.2.1 + (flushW r.2.1).2.2) % 8 ≠ 0 then .error .assertFail
      else .ok ⟨r.1 ++ (flushW r.2.1).2.1, r.2.2.2, n, b.p,
        (r.2.2.1 + (flushW r.2.1).2.2) / 8⟩

/-- Build a GCS file from the multiset `S`: `new` (the declared count is the
eventual list length; it only sizes the vector and repeats the overflow
check), `add` for each element, then `finish`. -/
def buildGCS (S : List Nat) (p g : Nat) : Except GErr GCSFile :=
  match newGCSBuilder [] S.length p g with
  | none => .error .overflow
  | some b => finishB (S.foldl addValue b)

/-- Big-endian bytes of the low `8 * k` bits of `v`. -/
def beBytes : Nat → Nat → List Nat
  | 0, _ => []
  | k + 1, v => (v / 2 ^ (8 * k)) % 256 :: beBytes k v

/-- Models `write_u64::<BigEndian>`. -/
def u64be (v : Nat) : List Nat := beBytes 8 v

/-- The magic trailer `"[GCS:v0]"` in ASCII. -/
def gcsMagic : List Nat := [0x5B, 0x47, 0x43, 0x53, 0x3A, 0x76, 0x30, 0x5D]

/-- Byte stream of the finished file: payload, index pairs as big-endian
`u64` pairs, then the 40-byte footer `N | P | end_of_data | index_len |
"[GCS:v0]"`. -/
def fileBytes (f : GCSFile) : List Nat :=
  f.payload ++ f.index.flatMap (fun e => u64be e.1 ++ u64be e.2)
    ++ u64be f.n ++ u64be f.p ++ u64be f.endOfData ++ u64be f.index.length ++ gcsMagic

/-- Read `k` bytes at byte position `pos` (`read_exact`; `none` on EOF). -/
def readBytesAt (data : List Nat) : Nat → Nat → Option (List Nat)
  | _, 0 => some []
  | pos, k + 1 =>
    match data[pos]? with
    | none => none
    | some b =>
      match readBytesAt data (pos + 1) k with
      | none => none
      | some bs => some (b :: bs)

/-- Models `read_u64::<BigEndian>` at byte position `pos`. -/
def readU64BE (data : List Nat) (pos : Nat) : Option Nat :=
  (readBytesAt data pos 8).map (List.foldl (fun a b => a * 256 + b) 0)

/-- Read `k` big-endian `(u64, u64)` pairs starting at byte `pos`. -/
def readPairs (data : List Nat) : Nat → Nat → Option (List (Nat × Nat))
  | _, 0 => some []
  | pos, k + 1 =>
    match readU64BE data pos, readU64BE data (pos + 8) with
    | some v, some q =>
      match readPairs data (pos + 16) k with
      | none => none
      | some rest => some ((v, q) :: rest)
    | _, _ => none

/-- State of `GCSReader` after its initialization step. -/
structure GReader where
  data : List Nat
  n : Nat
  p : Nat
  endOfData : Nat
  indexLen : Nat
  index : List (Nat × Nat)
  log2p : Nat
deriving DecidableEq, Repr

/-- Models `GCSReader::initialize`: seek to `EOF - 40` (an io error when the
file is shorter), read `n`, `p`, `end_of_data` and `index_len`, verify the
magic ("Not a GCS file" otherwise), then read `index_len` pairs starting at
byte `end_of_data`, prepending the implicit `(0, 0)` entry.  `log2p` is the
float `ceil(log2 p)`, instantiated here as `clog2 p`, which matches the float
for `p ≤ 2 ^ 46` but not for every `p` (see `clog2` and `initReaderL`). -/
def initReader (data : List Nat) : Except GErr GReader :=
  if data.length < 40 then .error .ioErr
  else
    match readU64BE data (data.length - 40), readU64BE data (data.length - 40 + 8),
        readU64BE data (data.length - 40 + 16), readU64BE data (data.length - 40 + 24) with
    | some n, some p, some eod, some ilen =>
      if readBytesAt data (data.length - 40 + 32) 8 = some gcsMagic then
        match readPairs data eod ilen with
        | none => .error .eof
        | some pairs => .ok ⟨data, n, p, eod, ilen, (0, 0) :: pairs, clog2 p⟩
      else .error .badMagic
    | _, _, _, _ => .error .eof

/-- Models `index.binary_search_by_key(&h, |&(v, _)| v)` followed by
`self.index[e.saturating_sub(1)]`, through the contract of binary search on a
slice sorted by key (which the index is): `none` when some entry has key `h`
(the caller returns `true` at once); otherwise the entry before the insertion
point — the last entry with key below `h`, or entry 0 when there is none
(`saturating_sub`). -/
def idxLookup (index : List (Nat × Nat)) (h : Nat) : Option (Nat × Nat) :=
  if index.any (fun e => e.1 = h) then none
  else
    match (index.filter (fun e => e.1 < h)).getLast? with
    | some e => some e
    | none => some (index.headD (0, 0))

/-- Models `GCSReader::exists(target)`.  `n * p = 0` makes `target % (n * p)`
a Rust division-by-zero panic.  The scan seeks to the checkpoint bit offset
and decodes until `last ≥ h`; the source has no end-of-data check, so the
scan can run into the index/footer bytes and end in `UnexpectedEof`. -/
def gcsExists (r : GReader) (target : Nat) : Except GErr Bool :=
  if r.n * r.p = 0 then .error .divByZero
  else
    match idxLookup r.index (target % (r.n * r.p)) with
    | none => .ok true
    | some e =>
      match seekBits r.data e.2 with
      | none => .error .eof
      | some s =>
        scanLoop r.data r.p r.log2p (8 * r.data.length + 16) e.1
          (target % (r.n * r.p)) s

/-- Open a file and query it: `initialize` then `exists`. -/
def queryGCS (data : List Nat) (target : Nat) : Except GErr Bool :=
  match initReader data with
  | .error e => .error e
  | .ok r => gcsExists r target

/-- Full pipeline: build from `S`, then query `x` on the produced bytes. -/
def buildQuery (S : List Nat) (p g x : Nat) : Except GErr (Except GErr Bool) :=
  (buildGCS S p g).map (fun f => queryGCS (fileBytes f) x)

deriving instance DecidableEq for Except

/-- `GCSBuilder::finish` with the Golomb suffix width abstracted: the program
computes the width from `p` by the float expression
`(p as f64).log2().ceil().trunc() as u8`, which is exactly the parameter
`L p`.  The body is that of `finishB`, which is the instance `L := clog2`
(see `finishB_is_finishBL`); instantiating `L` differently expresses the
program's behaviour where the float diverges from `clog2`. -/
def finishBL (L : Nat → Nat) (b : GCSBuilder) : Except GErr GCSFile :=
  let n := b.values.length
  if 2 ^ 64 ≤ n * b.p then .error .overflow
  else if n * b.p = 0 ∧ b.values ≠ [] then .error .divByZero
  else if b.index_granularity = 0 then .error .granZero
  else
    match encodeAll b.p (L b.p) b.index_granularity
        (sortDedup (b.values.map (· % (n * b.p)))) 0 0 0 wInit [] with
    | .error e => .error e
    | .ok r =>
      if (r.2.2.1 + (flushW r.2.1).2.2) % 8 ≠ 0 then .error .assertFail
      else .ok ⟨r.1 ++ (flushW r.2.1).2.1, r.2.2.2, n, b.p,
        (r.2.2.1 + (flushW r.2.1).2.2) / 8⟩

/-- `buildGCS` with the suffix width abstracted (see `finishBL`). -/
def buildGCSL (L : Nat → Nat) (S : List Nat) (p g : Nat) : Except GErr GCSFile :=
  match newGCSBuilder [] S.length p g with
  | none => .error .overflow
  | some b => finishBL L (S.foldl addValue b)

/-- `GCSReader::initialize` with the reader's suffix width abstracted: the
reader recomputes `log2p` from the parsed `p` by the same float expression,
here the parameter `L p` (see `finishBL`). -/
def initReaderL (L : Nat → Nat) (data : List Nat) : Except GErr GReader :=
  if data.length < 40 then .error .ioErr
  else
    match readU64BE data (data.length - 40), readU64BE data (data.length - 40 + 8),
        readU64BE data (data.length - 40 + 16), readU64BE data (data.length - 40 + 24) with
    | some n, some p, some eod, some ilen =>
      if readBytesAt data (data.length - 40 + 32) 8 = some gcsMagic then
        match readPairs data eod ilen with
        | none => .error .eof
        | some pairs => .ok ⟨data, n, p, eod, ilen, (0, 0) :: pairs, L p⟩
      else .error .badMagic
    | _, _, _, _ => .error .eof

/-- `queryGCS` with the suffix width abstracted (see `initReaderL`). -/
def queryGCSL (L : Nat → Nat) (data : List Nat) (target : Nat) : Except GErr Bool :=
  match initReaderL L data with
  | .error e => .error e
  | .ok r => gcsExists r target

/-- `buildQuery` with the suffix width abstracted on both sides. -/
def buildQueryL (L : Nat → Nat) (S : List Nat) (p g x : Nat) :
    Except GErr (Except GErr Bool) :=
  (buildGCSL L S p g).map (fun f => queryGCSL L (fileBytes f) x)

theorem finishB_is_finishBL (b : GCSBuilder) : finishB b = finishBL clog2 b := rfl

theorem buildQuery_is_buildQueryL (S : List Nat) (p g x : Nat) :
    buildQuery S p g x = buildQueryL clog2 S p g x := rfl

theorem dedupAdj_mem (l : List Nat) (x : Nat) : x ∈ dedupAdj l ↔ x ∈ l := by
  induction l with
  | nil => simp [dedupAdj]
  | cons a t ih =>
    cases t with
    | nil => simp [dedupAdj]
    | cons b t2 =>
      show x ∈ (if a = b then dedupAdj (b :: t2) else a :: dedupAdj (b :: t2)) ↔ _
      by_cases hab : a = b
      · rw [if_pos hab]
        rw [ih]
        subst hab
        simp
      · rw [if_neg hab]
        simp only [List.mem_cons]
        rw [ih]
        simp

theorem dedupAdj_chain (l : List Nat) (hs : List.Sorted (· ≤ ·) l) :
    List.Chain' (· < ·) (dedupAdj l) := by
  induction l with
  | nil => simp [dedupAdj]
  | cons a t ih =>
    cases t with
    | nil => simp [dedupAdj]
    | cons b t2 =>
      have hs2 : List.Sorted (· ≤ ·) (b :: t2) := hs.of_cons
      have hab : a ≤ b := (List.sorted_cons.mp hs).1 b (List.mem_cons_self _ _)
      show List.Chain' (· < ·) (if a = b then dedupAdj (b :: t2) else a :: dedupAdj (b :: t2))
      by_cases he : a = b
      · rw [if_pos he]
        exact ih hs2
      · rw [if_neg he]
        have hlt : a < b := lt_of_le_of_ne hab he
        have hch := ih hs2
        apply List.Chain'.cons'
        · exact hch
        · intro y hy
          -- y is the head of dedupAdj (b :: t2); show a < y
          have hmem : y ∈ dedupAdj (b :: t2) := by
            cases hh : dedupAdj (b :: t2) with
            | nil => rw [hh] at hy; simp at hy
            | cons z zs =>
              rw [hh] at hy
              simp at hy
              exact hy ▸ List.mem_cons_self z zs
          have hymem : y ∈ b :: t2 := (dedupAdj_mem _ _).mp hmem
          rcases List.mem_cons.mp hymem with h | h
          · subst h; exact hlt
          · have : b ≤ y := (List.sorted_cons.mp hs2).1 y h
            omega

theorem sortDedup_mem (l : List Nat) (x : Nat) : x ∈ sortDedup l ↔ x ∈ l := by
  unfold sortDedup
  rw [dedupAdj_mem]
  constructor
  · intro h
    exact (List.perm_insertionSort (· ≤ ·) l).mem_iff.mp h
  · intro h
    exact (List.perm_insertionSort (· ≤ ·) l).mem_iff.mpr h

theorem sortDedup_chain (l : List Nat) : List.Chain' (· < ·) (sortDedup l) :=
  dedupAdj_chain _ (List.sorted_insertionSort (· ≤ ·) l)

theorem sortDedup_pairwise (l : List Nat) : List.Pairwise (· < ·) (sortDedup l) :=
  List.chain'_iff_pairwise.mp (sortDedup_chain l)

/-- Delta stream of `finish`: each element minus the previous (`last` starts
at 0); `Nat` subtraction coincides with the `u64` subtraction because the
input is sorted. -/
def deltas : Nat → List Nat → List Nat
  | _, [] => []
  | last, v :: t => (v - last) :: deltas v t

@[simp] theorem deltas_length (last : Nat) (vs : List Nat) :
    (deltas last vs).length = vs.length := by
  induction vs generalizing last with
  | nil => rfl
  | cons v t ih => simp [deltas, ih]

theorem deltas_take_sum (vs : List Nat) :
    ∀ (last : Nat), List.Chain (· ≤ ·) last vs →
    ∀ m, m < vs.length → last + ((deltas last vs).take (m + 1)).sum = vs[m]! := by
  induction vs with
  | nil => intro last _ m hm; simp at hm
  | cons v t ih =>
    intro last hch m hm
    rcases List.chain_cons.mp hch with ⟨hlv, hcht⟩
    cases m with
    | zero =>
      show last + ((deltas last (v :: t)).take 1).sum = (v :: t)[0]!
      simp [deltas, List.take_one]
      omega
    | succ m =>
      have hm2 : m < t.length := by simpa using hm
      have hrec := ih v hcht m hm2
      show last + (((v - last) :: deltas v t).take (m + 2)).sum = (v :: t)[m + 1]!
      rw [List.take_cons (by omega : 0 < m + 2), List.sum_cons]
      have hm21 : m + 2 - 1 = m + 1 := by omega
      rw [hm21]
      have hidx : (v :: t)[m + 1]! = t[m]! := by
        simp [List.getElem!_cons_succ]
      rw [hidx, ← hrec]
      omega

theorem chain_le_of_pairwise_lt (vs : List Nat) (h : List.Pairwise (· < ·) vs) :
    List.Chain (· ≤ ·) 0 vs := by
  rw [List.chain_iff_pairwise]
  apply List.Pairwise.cons
  · intro y _; omega
  · exact h.imp (fun hxy => Nat.le_of_lt hxy)

theorem bytesBits_length (bs : List Nat) : (bytesBits bs).length = 8 * bs.length := by
  induction bs with
  | nil => simp [bytesBits]
  | cons b t ih =>
    simp only [bytesBits, List.flatMap_cons, List.length_append] at ih ⊢
    rw [ih]
    simp [byteBits]
    ring

theorem bytesBits_append (a b : List Nat) :
    bytesBits (a ++ b) = bytesBits a ++ bytesBits b := by
  simp [bytesBits, List.flatMap_append]

theorem bytesBits_drop (k : Nat) (l : List Nat) :
    bytesBits (l.drop k) = (bytesBits l).drop (8 * k) := by
  induction k generalizing l with
  | zero => simp
  | succ k ih =>
    cases l with
    | nil => simp [bytesBits]
    | cons b t =>
      show bytesBits (t.drop k) = (bytesBits (b :: t)).drop (8 * (k + 1))
      rw [ih]
      have hsplit : bytesBits (b :: t) = byteBits b ++ bytesBits t := by
        simp [bytesBits, List.flatMap_cons]
      rw [hsplit, List.drop_append_eq_append_drop]
      have hlb : (byteBits b).length = 8 := by simp [byteBits]
      have h1 : List.drop (8 * (k + 1)) (byteBits b) = [] :=
        List.drop_eq_nil_of_le (by rw [hlb]; omega)
      have h2 : 8 * (k + 1) - 8 = 8 * k := by omega
      rw [h1, hlb, List.nil_append, h2]

theorem flatMap_cw_ge (p log2p : Nat) (ds : List Nat) :
    ds.length ≤ (ds.flatMap (cwBits p log2p)).length := by
  induction ds with
  | nil => simp
  | cons d t ih =>
    have hcw : 1 ≤ (cwBits p log2p d).length := by
      rw [cwBits_length]
      exact le_trans (Nat.le_add_left 1 (d / p)) (Nat.le_add_right _ _)
    simp only [List.flatMap_cons, List.length_append, List.length_cons]
    omega

theorem flatMap_take_drop (p log2p : Nat) (ds : List Nat) (j : Nat) :
    ds.flatMap (cwBits p log2p)
      = (ds.take j).flatMap (cwBits p log2p) ++ (ds.drop j).flatMap (cwBits p log2p) := by
  conv_lhs => rw [← List.take_append_drop j ds]
  rw [List.flatMap_append]

theorem sum_take_mono (l : List Nat) (j j' : Nat) (h : j ≤ j') :
    (l.take j).sum ≤ (l.take j').sum := by
  have h1 : l.take j' = l.take j ++ ((l.drop j).take (j' - j)) := by
    rw [← List.take_add]
    congr 1
    omega
  rw [h1, List.sum_append]
  omega

theorem sum_take_add (l : List Nat) (j k : Nat) :
    (l.take (j + k)).sum = (l.take j).sum + ((l.drop j).take k).sum := by
  rw [List.take_add, List.sum_append]

theorem encodeG_ok_cond (p log2p : Nat) (st : WState) (val : Nat)
    (r1 : WState × List Nat × Nat) (hG : encodeG p log2p st val = some r1) :
    p ≠ 0 ∧ val / p < 63 := by
  by_cases hp : p = 0
  · rw [encodeG, if_pos hp] at hG
    exact absurd hG (by simp)
  · by_cases hq : 63 ≤ val / p
    · rw [encodeG, if_neg hp, if_pos hq] at hG
      exact absurd hG (by simp)
    · exact ⟨hp, by omega⟩

theorem encodeAll_spec (p log2p g : Nat) (hlp : p ≤ 2 ^ log2p) (hl64 : log2p ≤ 64) :
    ∀ (vs : List Nat) (i last totalBits : Nat) (st : WState) (index : List (Nat × Nat))
      (r : List Nat × WState × Nat × List (Nat × Nat)),
    WInv st →
    encodeAll p log2p g vs i last totalBits st index = .ok r →
    WInv r.2.1 ∧
    bytesBits r.1 ++ pendingBits r.2.1
      = pendingBits st ++ (deltas last vs).flatMap (cwBits p log2p) ∧
    r.2.2.1 = totalBits + ((deltas last vs).flatMap (cwBits p log2p)).length ∧
    (∀ b ∈ r.1, b < 256) ∧
    (∀ e ∈ r.2.2.2, e ∈ index ∨ ∃ k, k < vs.length ∧ 0 < g ∧ 0 < i + k ∧ (i + k) % g = 0 ∧
      e = (vs[k]!, totalBits
        + (((deltas last vs).take (k + 1)).flatMap (cwBits p log2p)).length)) := by
  intro vs
  induction vs with
  | nil =>
    intro i last totalBits st index r hinv hok
    simp only [encodeAll] at hok
    have hr : ([], st, totalBits, index) = r := Except.ok.inj hok
    subst hr
    refine ⟨hinv, by simp [bytesBits, deltas], by simp [deltas], by simp, ?_⟩
    intro e he
    exact Or.inl he
  | cons v rest ih =>
    intro i last totalBits st index r hinv hok
    simp only [encodeAll] at hok
    by_cases hvl : v < last
    · rw [if_pos hvl] at hok
      exact absurd hok (by simp)
    · rw [if_neg hvl] at hok
      cases hG : encodeG p log2p st (v - last) with
      | none =>
        rw [hG] at hok
        exact absurd hok (by simp)
      | some r1 =>
        rw [hG] at hok
        obtain ⟨hp, hq⟩ := encodeG_ok_cond p log2p st (v - last) r1 hG
        have hrlt : (v - last) % p < 2 ^ log2p :=
          lt_of_lt_of_le (Nat.mod_lt _ (by omega)) hlp
        obtain ⟨st2, bs, heqG, hinv2, hbits1, hb1⟩ :=
          encodeG_spec p log2p st (v - last) hinv hp hq hl64 hrlt
        have hr1 : r1 = (st2, bs, (v - last) / p + 1 + log2p) := by
          rw [hG] at heqG
          exact Option.some_inj.mp heqG
        subst hr1
        simp only at hok
        by_cases hov : 2 ^ 64 ≤ totalBits + ((v - last) / p + 1 + log2p)
        · rw [if_pos hov] at hok
          exact absurd hok (by simp)
        · rw [if_neg hov] at hok
          cases hrec : encodeAll p log2p g rest (i + 1) v
              (totalBits + ((v - last) / p + 1 + log2p)) st2
              (if 0 < g ∧ 0 < i ∧ i % g = 0
                then index ++ [(v, totalBits + ((v - last) / p + 1 + log2p))] else index) with
          | error e =>
            rw [hrec] at hok
            exact absurd hok (by simp)
          | ok r2 =>
            rw [hrec] at hok
            have hr : (bs ++ r2.1, r2.2) = r := Except.ok.inj hok
            subst hr
            obtain ⟨hinv3, hbits2, htb2, hb2, hidx2⟩ :=
              ih (i + 1) v (totalBits + ((v - last) / p + 1 + log2p)) st2 _ r2 hinv2 hrec
            have hcwlen : (cwBits p log2p (v - last)).length
                = (v - last) / p + 1 + log2p := cwBits_length _ _ _
            have hdl : deltas last (v :: rest) = (v - last) :: deltas v rest := rfl
            refine ⟨hinv3, ?_, ?_, ?_, ?_⟩
            · show bytesBits (bs ++ r2.1) ++ pendingBits r2.2.1 = _
              rw [bytesBits_append, List.append_assoc, hbits2, ← List.append_assoc,
                hbits1, hdl, List.flatMap_cons, List.append_assoc]
            · show r2.2.2.1 = _
              rw [htb2, hdl, List.flatMap_cons, List.length_append, hcwlen]
              omega
            · intro b hb
              rcases List.mem_append.mp hb with h | h
              · exact hb1 b h
              · exact hb2 b h
            · intro e he
              rcases hidx2 e he with hin | ⟨k', hk', hg, hik, hmod, hval⟩
              · -- entry came from the accumulated index (possibly with the new point)
                by_cases hcond : 0 < g ∧ 0 < i ∧ i % g = 0
                · rw [if_pos hcond] at hin
                  rcases List.mem_append.mp hin with h | h
                  · exact Or.inl h
                  · right
                    have he2 : e = (v, totalBits + ((v - last) / p + 1 + log2p)) := by
                      simpa using h
                    refine ⟨0, by simp, hcond.1, by omega, by
                      have := hcond.2.2; simpa using this, ?_⟩
                    rw [he2, hdl]
                    have ht1 : ((v - last) :: deltas v rest).take 1 = [v - last] := by
                      simp
                    rw [ht1]
                    simp [hcwlen]
                · rw [if_neg hcond] at hin
                  exact Or.inl hin
              · right
                refine ⟨k' + 1, by simpa using hk', hg, by omega, by
                  have : i + (k' + 1) = i + 1 + k' := by omega
                  rw [this]; exact hmod, ?_⟩
                rw [hval, hdl]
                have htk : ((v - last) :: deltas v rest).take (k' + 1 + 1)
                    = (v - last) :: (deltas v rest).take (k' + 1) := by
                  simp
                rw [htk, List.flatMap_cons, List.length_append, hcwlen]
                have hge : (v :: rest)[k' + 1]! = rest[k']! := by
                  simp [List.getElem!_cons_succ]
                rw [hge]
                congr 1
                omega

/-- Reduced, sorted, deduplicated value list that `finish` encodes, for a
builder holding `values` and parameter `p` (`n` is re-read as the length). -/
def vsOf (values : List Nat) (p : Nat) : List Nat :=
  sortDedup (values.map (· % (values.length * p)))

theorem foldl_addValue (vs : List Nat) : ∀ (b : GCSBuilder),
    vs.foldl addValue b
      = ⟨b.io, b.n, b.p, b.index_granularity, b.values ++ vs⟩ := by
  induction vs with
  | nil => intro b; simp [List.foldl_nil]
  | cons v t ih =>
    intro b
    rw [List.foldl_cons, ih]
    simp [addValue]

theorem buildGCS_eq (S : List Nat) (p g : Nat) (hnp : S.length * p < 2 ^ 64) :
    buildGCS S p g = finishB ⟨[], S.length, p, g, S⟩ := by
  unfold buildGCS newGCSBuilder
  rw [if_pos hnp]
  show finishB (S.foldl addValue ⟨[], S.length, p, g, []⟩) = _
  rw [foldl_addValue]
  rfl

theorem flushW_pad_le (st : WState) (hinv : WInv st) : (flushW st).2.2 ≤ 8 := by
  unfold flushW
  by_cases h : st.unused ≠ 8
  · rw [if_pos h]
    exact hinv.2.1
  · rw [if_neg h]
    norm_num

theorem encodeAll_totalBits_lt (p log2p g : Nat) :
    ∀ (vs : List Nat) (i last totalBits : Nat) (st : WState) (index : List (Nat × Nat))
      (r : List Nat × WState × Nat × List (Nat × Nat)),
    totalBits < 2 ^ 64 →
    encodeAll p log2p g vs i last totalBits st index = .ok r →
    r.2.2.1 < 2 ^ 64 := by
  intro vs
  induction vs with
  | nil =>
    intro i last totalBits st index r htb hok
    simp only [encodeAll] at hok
    have hr := Except.ok.inj hok
    rw [← hr]
    exact htb
  | cons v rest ih =>
    intro i last totalBits st index r htb hok
    simp only [encodeAll] at hok
    by_cases hvl : v < last
    · rw [if_pos hvl] at hok
      exact absurd hok (by simp)
    rw [if_neg hvl] at hok
    cases hG : encodeG p log2p st (v - last) with
    | none =>
      rw [hG] at hok
      exact absurd hok (by simp)
    | some r1 =>
      rw [hG] at hok
      simp only at hok
      by_cases hov : 2 ^ 64 ≤ totalBits + r1.2.2
      · rw [if_pos hov] at hok
        exact absurd hok (by simp)
      rw [if_neg hov] at hok
      cases hrec : encodeAll p log2p g rest (i + 1) v (totalBits + r1.2.2) r1.1
          (if 0 < g ∧ 0 < i ∧ i % g = 0
            then index ++ [(v, totalBits + r1.2.2)] else index) with
      | error e =>
        rw [hrec] at hok
        exact absurd hok (by simp)
      | ok r2 =>
        rw [hrec] at hok
        have hr : (r1.2.1 ++ r2.1, r2.2) = r := Except.ok.inj hok
        rw [← hr]
        exact ih _ _ _ _ _ r2 (by omega) hrec


theorem encodeAll_index_len (p log2p g : Nat) :
    ∀ (vs : List Nat) (i last totalBits : Nat) (st : WState) (index : List (Nat × Nat))
      (r : List Nat × WState × Nat × List (Nat × Nat)),
    encodeAll p log2p g vs i last totalBits st index = .ok r →
    r.2.2.2.length ≤ index.length + vs.length := by
  intro vs
  induction vs with
  | nil =>
    intro i last totalBits st index r hok
    simp only [encodeAll] at hok
    have hr := Except.ok.inj hok
    rw [← hr]
    simp
  | cons v rest ih =>
    intro i last totalBits st index r hok
    simp only [encodeAll] at hok
    by_cases hvl : v < last
    · rw [if_pos hvl] at hok
      exact absurd hok (by simp)
    rw [if_neg hvl] at hok
    cases hG : encodeG p log2p st (v - last) with
    | none =>
      rw [hG] at hok
      exact absurd hok (by simp)
    | some r1 =>
      rw [hG] at hok
      simp only at hok
      by_cases hov : 2 ^ 64 ≤ totalBits + r1.2.2
      · rw [if_pos hov] at hok
        exact absurd hok (by simp)
      rw [if_neg hov] at hok
      cases hrec : encodeAll p log2p g rest (i + 1) v (totalBits + r1.2.2) r1.1
          (if 0 < g ∧ 0 < i ∧ i % g = 0
            then index ++ [(v, totalBits + r1.2.2)] else index) with
      | error e =>
        rw [hrec] at hok
        exact absurd hok (by simp)
      | ok r2 =>
        rw [hrec] at hok
        have hr : (r1.2.1 ++ r2.1, r2.2) = r := Except.ok.inj hok
        rw [← hr]
        have hlen2 := ih _ _ _ _ _ r2 hrec
        have hi2 : (if 0 < g ∧ 0 < i ∧ i % g = 0
            then index ++ [(v, totalBits + r1.2.2)] else index).length
            ≤ index.length + 1 := by
          split
          · simp
          · simp
        show r2.2.2.2.length ≤ index.length + (v :: rest).length
        simp only [List.length_cons]
        omega

theorem finishB_spec (b : GCSBuilder) (f : GCSFile) (hok : finishB b = .ok f) :
    f.n = b.values.length ∧ f.p = b.p ∧
    b.values.length * b.p < 2 ^ 64 ∧
    (b.values ≠ [] → b.values.length * b.p ≠ 0) ∧
    1 ≤ b.index_granularity ∧
    (∀ byte ∈ f.payload, byte < 256) ∧
    f.endOfData = f.payload.length ∧
    (∃ pad, bytesBits f.payload
      = (deltas 0 (vsOf b.values b.p)).flatMap (cwBits b.p (Nat.clog 2 b.p))
        ++ List.replicate pad false) ∧
    (∀ e ∈ f.index, ∃ k, k < (vsOf b.values b.p).length ∧ 0 < k ∧
      k % b.index_granularity = 0 ∧
      e = ((vsOf b.values b.p)[k]!,
        (((deltas 0 (vsOf b.values b.p)).take (k + 1)).flatMap (cwBits b.p (Nat.clog 2 b.p))).length)) ∧
    ((deltas 0 (vsOf b.values b.p)).flatMap (cwBits b.p (Nat.clog 2 b.p))).length < 2 ^ 64 ∧
    f.payload.length < 2 ^ 64 ∧
    f.index.length ≤ (vsOf b.values b.p).length := by
  unfold finishB at hok
  rw [clog2_eq_clog] at hok
  by_cases h1 : 2 ^ 64 ≤ b.values.length * b.p
  · rw [if_pos h1] at hok
    exact absurd hok (by simp)
  rw [if_neg h1] at hok
  by_cases h2 : b.values.length * b.p = 0 ∧ b.values ≠ []
  · rw [if_pos h2] at hok
    exact absurd hok (by simp)
  rw [if_neg h2] at hok
  by_cases h3 : b.index_granularity = 0
  · rw [if_pos h3] at hok
    exact absurd hok (by simp)
  rw [if_neg h3] at hok
  cases hE : encodeAll b.p (Nat.clog 2 b.p) b.index_granularity
      (sortDedup (b.values.map (· % (b.values.length * b.p)))) 0 0 0 wInit [] with
  | error e =>
    rw [hE] at hok
    exact absurd hok (by simp)
  | ok r =>
    rw [hE] at hok
    simp only at hok
    by_cases h4 : (r.2.2.1 + (flushW r.2.1).2.2) % 8 ≠ 0
    · rw [if_pos h4] at hok
      exact absurd hok (by simp)
    rw [if_neg h4] at hok
    have hf : (⟨r.1 ++ (flushW r.2.1).2.1, r.2.2.2, b.values.length, b.p,
        (r.2.2.1 + (flushW r.2.1).2.2) / 8⟩ : GCSFile) = f := Except.ok.inj hok
    subst hf
    push_neg at h4
    have hvseq : vsOf b.values b.p
        = sortDedup (b.values.map (· % (b.values.length * b.p))) := rfl
    -- encodeAll characterization; in the empty case compute directly
    have hmain : WInv r.2.1 ∧
        bytesBits r.1 ++ pendingBits r.2.1
          = (deltas 0 (vsOf b.values b.p)).flatMap (cwBits b.p (Nat.clog 2 b.p)) ∧
        r.2.2.1 = ((deltas 0 (vsOf b.values b.p)).flatMap (cwBits b.p (Nat.clog 2 b.p))).length ∧
        (∀ byte ∈ r.1, byte < 256) ∧
        (∀ e ∈ r.2.2.2, ∃ k, k < (vsOf b.values b.p).length ∧ 0 < k ∧
          k % b.index_granularity = 0 ∧
          e = ((vsOf b.values b.p)[k]!,
            (((deltas 0 (vsOf b.values b.p)).take (k + 1)).flatMap (cwBits b.p (Nat.clog 2 b.p))).length)) := by
      by_cases hemp : b.values = []
      · have hvs : sortDedup (b.values.map (· % (b.values.length * b.p))) = [] := by
          rw [hemp]
          rfl
        rw [hvs] at hE
        simp only [encodeAll] at hE
        have hr : ([], wInit, 0, ([] : List (Nat × Nat))) = r := Except.ok.inj hE
        subst hr
        rw [hvseq, hvs]
        refine ⟨wInit_inv, by simp [bytesBits, deltas, pendingBits, wInit, natBits],
          by simp [deltas], by simp, by simp⟩
      · have hnp0 : b.values.length * b.p ≠ 0 := by
          intro hz
          exact h2 ⟨hz, hemp⟩
        have hn1 : 1 ≤ b.values.length := by
          cases hv : b.values with
          | nil => exact absurd hv hemp
          | cons a t => simp [hv]
        have hple : b.p ≤ 2 ^ 64 := by
          have hp1 : b.p ≤ b.values.length * b.p := Nat.le_mul_of_pos_left _ (by omega)
          omega
        have hl64 : Nat.clog 2 b.p ≤ 64 :=
          (Nat.le_pow_iff_clog_le (by norm_num)).mp hple
        have hlp : b.p ≤ 2 ^ Nat.clog 2 b.p := Nat.le_pow_clog (by norm_num) _
        obtain ⟨hi1, hi2, hi3, hi4, hi5⟩ := encodeAll_spec b.p (Nat.clog 2 b.p)
          b.index_granularity hlp hl64 _ 0 0 0 wInit [] r wInit_inv hE
        rw [← hvseq] at hi2 hi3 hi5
        refine ⟨hi1, ?_, by rw [hi3]; simp, hi4, ?_⟩
        · rw [hi2]
          rfl
        · intro e he
          rcases hi5 e he with h | ⟨k, hk1, _, hk3, hk4, hk5⟩
          · simp at h
          · exact ⟨k, hk1, by omega, by simpa using hk4, by rw [hk5]; simp⟩
    obtain ⟨hwinv, hbits, htb, hbyte, hidx⟩ := hmain
    have hflush := flushW_spec r.2.1 hwinv
    have htblt : r.2.2.1 < 2 ^ 64 :=
      encodeAll_totalBits_lt b.p (Nat.clog 2 b.p) b.index_granularity _ 0 0 0 wInit []
        r (Nat.two_pow_pos 64) hE
    have hpadle : (flushW r.2.1).2.2 ≤ 8 := flushW_pad_le r.2.1 hwinv
    have hlen : (bytesBits (r.1 ++ (flushW r.2.1).2.1)).length
        = 8 * (r.1 ++ (flushW r.2.1).2.1).length := bytesBits_length _
    have hsum : bytesBits (r.1 ++ (flushW r.2.1).2.1)
        = (bytesBits r.1 ++ pendingBits r.2.1)
          ++ List.replicate (flushW r.2.1).2.2 false := by
      rw [bytesBits_append, hflush.1, List.append_assoc]
    have hll : 8 * (r.1 ++ (flushW r.2.1).2.1).length
        = r.2.2.1 + (flushW r.2.1).2.2 := by
      rw [← hlen, hsum, hbits, List.length_append, List.length_replicate, ← htb]
    have hidxlen : r.2.2.2.length ≤ (vsOf b.values b.p).length := by
      have h0 := encodeAll_index_len b.p (Nat.clog 2 b.p) b.index_granularity _ 0 0 0 wInit [] r hE
      rw [← hvseq] at h0
      simpa using h0
    refine ⟨rfl, rfl, by omega, fun hne => by
      intro hz
      exact h2 ⟨hz, hne⟩, by omega, ?_, ?_, ?_, ?_, ?_, ?_, hidxlen⟩
    · intro byte hb
      rcases List.mem_append.mp hb with h | h
      · exact hbyte byte h
      · exact hflush.2.2 byte h
    · -- endOfData = payload length
      show (r.2.2.1 + (flushW r.2.1).2.2) / 8 = (r.1 ++ (flushW r.2.1).2.1).length
      omega
    · -- payload bits
      refine ⟨(flushW r.2.1).2.2, ?_⟩
      show bytesBits (r.1 ++ (flushW r.2.1).2.1) = _
      rw [bytesBits_append, hflush.1, ← List.append_assoc, hbits]
    · exact hidx
    · -- total payload bit count fits in u64
      show ((deltas 0 (vsOf b.values b.p)).flatMap (cwBits b.p (Nat.clog 2 b.p))).length
          < 2 ^ 64
      rw [← htb]
      exact htblt
    · -- payload byte count fits in u64
      show (r.1 ++ (flushW r.2.1).2.1).length < 2 ^ 64
      omega

theorem readBytesAt_append (mid : List Nat) : ∀ (pre post : List Nat),
    readBytesAt (pre ++ mid ++ post) pre.length mid.length = some mid := by
  induction mid with
  | nil => intro pre post; rfl
  | cons m rest ih =>
    intro pre post
    show readBytesAt (pre ++ m :: rest ++ post) pre.length (rest.length + 1) = some (m :: rest)
    simp only [readBytesAt]
    have hget : (pre ++ m :: rest ++ post)[pre.length]? = some m := by
      rw [List.append_assoc, List.getElem?_append_right (le_refl _)]
      simp
    rw [hget]
    have hdata : pre ++ m :: rest ++ post = (pre ++ [m]) ++ rest ++ post := by simp
    have hlen : pre.length + 1 = (pre ++ [m]).length := by simp
    rw [hdata, hlen, ih (pre ++ [m]) post]

@[simp] theorem beBytes_length (k v : Nat) : (beBytes k v).length = k := by
  induction k generalizing v with
  | zero => rfl
  | succ k ih => simp [beBytes, ih]

@[simp] theorem u64be_length (v : Nat) : (u64be v).length = 8 := beBytes_length 8 v

theorem digit_identity (v m : Nat) :
    (v / 2 ^ m % 2 ^ 8) * 2 ^ m + v % 2 ^ m = v % 2 ^ (m + 8) := by
  have h1 : v % 2 ^ (m + 8) / 2 ^ m = v / 2 ^ m % 2 ^ 8 := by
    rw [pow_add]
    exact Nat.mod_mul_right_div_self v (2 ^ m) (2 ^ 8)
  have h2 : v % 2 ^ (m + 8) % 2 ^ m = v % 2 ^ m := by
    apply Nat.mod_mod_of_dvd
    exact pow_dvd_pow 2 (by omega)
  calc (v / 2 ^ m % 2 ^ 8) * 2 ^ m + v % 2 ^ m
      = v % 2 ^ (m + 8) / 2 ^ m * 2 ^ m + v % 2 ^ (m + 8) % 2 ^ m := by rw [h1, h2]
    _ = 2 ^ m * (v % 2 ^ (m + 8) / 2 ^ m) + v % 2 ^ (m + 8) % 2 ^ m := by ring_nf
    _ = v % 2 ^ (m + 8) := Nat.div_add_mod _ _

theorem beBytes_foldl (k : Nat) : ∀ (v a : Nat),
    List.foldl (fun a b => a * 256 + b) a (beBytes k v)
      = a * 2 ^ (8 * k) + v % 2 ^ (8 * k) := by
  induction k with
  | zero =>
    intro v a
    simp [beBytes, Nat.mod_one]
  | succ k ih =>
    intro v a
    show List.foldl _ a ((v / 2 ^ (8 * k)) % 256 :: beBytes k v) = _
    rw [List.foldl_cons, ih]
    have h256 : (256 : Nat) = 2 ^ 8 := by norm_num
    have hd := digit_identity v (8 * k)
    have h8k : 8 * k + 8 = 8 * (k + 1) := by ring
    rw [h8k] at hd
    rw [h256]
    calc (a * 2 ^ 8 + v / 2 ^ (8 * k) % 2 ^ 8) * 2 ^ (8 * k) + v % 2 ^ (8 * k)
        = a * (2 ^ 8 * 2 ^ (8 * k))
          + (v / 2 ^ (8 * k) % 2 ^ 8 * 2 ^ (8 * k) + v % 2 ^ (8 * k)) := by ring
      _ = a * 2 ^ (8 * (k + 1)) + v % 2 ^ (8 * (k + 1)) := by
          rw [hd, ← pow_add]
          congr 2
          ring

theorem readU64BE_at (pre post : List Nat) (v : Nat) (hv : v < 2 ^ 64) :
    readU64BE (pre ++ u64be v ++ post) pre.length = some v := by
  unfold readU64BE
  have h8 : (8 : Nat) = (u64be v).length := (u64be_length v).symm
  rw [h8, readBytesAt_append (u64be v) pre post]
  show some (List.foldl _ 0 (beBytes 8 v)) = some v
  rw [beBytes_foldl 8 v 0]
  have h64 : 8 * 8 = 64 := by norm_num
  rw [h64, Nat.zero_mul, Nat.zero_add, Nat.mod_eq_of_lt hv]

theorem readPairs_at (idx : List (Nat × Nat)) : ∀ (pre post : List Nat),
    (∀ e ∈ idx, e.1 < 2 ^ 64 ∧ e.2 < 2 ^ 64) →
    readPairs (pre ++ idx.flatMap (fun e => u64be e.1 ++ u64be e.2) ++ post)
      pre.length idx.length = some idx := by
  induction idx with
  | nil => intro pre post _; rfl
  | cons e rest ih =>
    intro pre post hb
    obtain ⟨he1, he2⟩ := hb e (List.mem_cons_self _ _)
    show readPairs _ pre.length (rest.length + 1) = _
    simp only [readPairs]
    have hv1 : readU64BE (pre ++ (e :: rest).flatMap (fun e => u64be e.1 ++ u64be e.2) ++ post)
        pre.length = some e.1 := by
      have hshape : pre ++ (e :: rest).flatMap (fun e => u64be e.1 ++ u64be e.2) ++ post
          = pre ++ u64be e.1
            ++ (u64be e.2 ++ rest.flatMap (fun e => u64be e.1 ++ u64be e.2) ++ post) := by
        simp [List.flatMap_cons, List.append_assoc]
      rw [hshape]
      exact readU64BE_at pre _ e.1 he1
    have hv2 : readU64BE (pre ++ (e :: rest).flatMap (fun e => u64be e.1 ++ u64be e.2) ++ post)
        (pre.length + 8) = some e.2 := by
      have hshape : pre ++ (e :: rest).flatMap (fun e => u64be e.1 ++ u64be e.2) ++ post
          = (pre ++ u64be e.1) ++ u64be e.2
            ++ (rest.flatMap (fun e => u64be e.1 ++ u64be e.2) ++ post) := by
        simp [List.flatMap_cons, List.append_assoc]
      have hlen : pre.length + 8 = (pre ++ u64be e.1).length := by simp
      rw [hshape, hlen]
      exact readU64BE_at (pre ++ u64be e.1) _ e.2 he2
    rw [hv1, hv2]
    have hrec : readPairs (pre ++ (e :: rest).flatMap (fun e => u64be e.1 ++ u64be e.2) ++ post)
        (pre.length + 16) rest.length = some rest := by
      have hshape : pre ++ (e :: rest).flatMap (fun e => u64be e.1 ++ u64be e.2) ++ post
          = (pre ++ u64be e.1 ++ u64be e.2)
            ++ rest.flatMap (fun e => u64be e.1 ++ u64be e.2) ++ post := by
        simp [List.flatMap_cons, List.append_assoc]
      have hlen : pre.length + 16 = (pre ++ u64be e.1 ++ u64be e.2).length := by simp
      rw [hshape, hlen]
      exact ih _ post (fun x hx => hb x (List.mem_cons_of_mem _ hx))
    rw [hrec]

theorem beBytes_lt (k v : Nat) : ∀ b ∈ beBytes k v, b < 256 := by
  induction k generalizing v with
  | zero => intro b hb; simp [beBytes] at hb
  | succ k ih =>
    intro b hb
    rcases List.mem_cons.mp hb with h | h
    · subst h
      exact Nat.mod_lt _ (by norm_num)
    · exact ih v b h

theorem fileBytes_lt (f : GCSFile) (hp : ∀ byte ∈ f.payload, byte < 256) :
    ∀ b ∈ fileBytes f, b < 256 := by
  intro b hb
  unfold fileBytes at hb
  simp only [List.append_assoc, List.mem_append] at hb
  rcases hb with h | h | h | h | h | h | h
  · exact hp b h
  · rcases List.mem_flatMap.mp h with ⟨e, _, he⟩
    rcases List.mem_append.mp he with h2 | h2
    · exact beBytes_lt 8 e.1 b h2
    · exact beBytes_lt 8 e.2 b h2
  · exact beBytes_lt 8 f.n b h
  · exact beBytes_lt 8 f.p b h
  · exact beBytes_lt 8 f.endOfData b h
  · exact beBytes_lt 8 f.index.length b h
  · -- magic bytes
    have hm : b = 0x5B ∨ b = 0x47 ∨ b = 0x43 ∨ b = 0x53 ∨ b = 0x3A ∨ b = 0x76
        ∨ b = 0x30 ∨ b = 0x5D := by
      simpa [gcsMagic] using h
    omega

theorem idxBytes_length (idx : List (Nat × Nat)) :
    (idx.flatMap (fun e => u64be e.1 ++ u64be e.2)).length = 16 * idx.length := by
  induction idx with
  | nil => simp
  | cons e t ih =>
    simp [List.flatMap_cons, ih]
    ring

theorem initReader_built (f : GCSFile)
    (hn : f.n < 2 ^ 64) (hp : f.p < 2 ^ 64) (hilen : f.index.length < 2 ^ 64)
    (heodv : f.endOfData < 2 ^ 64) (heod : f.endOfData = f.payload.length)
    (hvals : ∀ e ∈ f.index, e.1 < 2 ^ 64 ∧ e.2 < 2 ^ 64) :
    initReader (fileBytes f) = .ok ⟨fileBytes f, f.n, f.p, f.endOfData, f.index.length,
      (0, 0) :: f.index, Nat.clog 2 f.p⟩ := by
  have hmaglen : gcsMagic.length = 8 := rfl
  have hL : (fileBytes f).length
      = f.payload.length
        + (f.index.flatMap (fun e => u64be e.1 ++ u64be e.2)).length + 40 := by
    simp [fileBytes, gcsMagic]
    omega
  have hpos0 : (fileBytes f).length - 40
      = (f.payload ++ f.index.flatMap (fun e => u64be e.1 ++ u64be e.2)).length := by
    rw [List.length_append]
    omega
  have hshape0 : fileBytes f
      = (f.payload ++ f.index.flatMap (fun e => u64be e.1 ++ u64be e.2))
        ++ u64be f.n
        ++ (u64be f.p ++ u64be f.endOfData ++ u64be f.index.length ++ gcsMagic) := by
    simp [fileBytes, List.append_assoc]
  have hA : readU64BE (fileBytes f) ((fileBytes f).length - 40) = some f.n := by
    rw [hpos0]
    conv_lhs => rw [hshape0]
    exact readU64BE_at _ _ f.n hn
  have hpos1 : (fileBytes f).length - 40 + 8
      = ((f.payload ++ f.index.flatMap (fun e => u64be e.1 ++ u64be e.2))
          ++ u64be f.n).length := by
    simp only [List.length_append, u64be_length]
    omega
  have hshape1 : fileBytes f
      = ((f.payload ++ f.index.flatMap (fun e => u64be e.1 ++ u64be e.2)) ++ u64be f.n)
        ++ u64be f.p
        ++ (u64be f.endOfData ++ u64be f.index.length ++ gcsMagic) := by
    simp [fileBytes, List.append_assoc]
  have hB : readU64BE (fileBytes f) ((fileBytes f).length - 40 + 8) = some f.p := by
    rw [hpos1]
    conv_lhs => rw [hshape1]
    exact readU64BE_at _ _ f.p hp
  have hpos2 : (fileBytes f).length - 40 + 16
      = ((f.payload ++ f.index.flatMap (fun e => u64be e.1 ++ u64be e.2))
          ++ u64be f.n ++ u64be f.p).length := by
    simp only [List.length_append, u64be_length]
    omega
  have hshape2 : fileBytes f
      = ((f.payload ++ f.index.flatMap (fun e => u64be e.1 ++ u64be e.2))
          ++ u64be f.n ++ u64be f.p)
        ++ u64be f.endOfData ++ (u64be f.index.length ++ gcsMagic) := by
    simp [fileBytes, List.append_assoc]
  have hC : readU64BE (fileBytes f) ((fileBytes f).length - 40 + 16) = some f.endOfData := by
    rw [hpos2]
    conv_lhs => rw [hshape2]
    exact readU64BE_at _ _ f.endOfData heodv
  have hpos3 : (fileBytes f).length - 40 + 24
      = ((f.payload ++ f.index.flatMap (fun e => u64be e.1 ++ u64be e.2))
          ++ u64be f.n ++ u64be f.p ++ u64be f.endOfData).length := by
    simp only [List.length_append, u64be_length]
    omega
  have hshape3 : fileBytes f
      = ((f.payload ++ f.index.flatMap (fun e => u64be e.1 ++ u64be e.2))
          ++ u64be f.n ++ u64be f.p ++ u64be f.endOfData)
        ++ u64be f.index.length ++ gcsMagic := by
    simp [fileBytes, List.append_assoc]
  have hD : readU64BE (fileBytes f) ((fileBytes f).length - 40 + 24)
      = some f.index.length := by
    rw [hpos3]
    conv_lhs => rw [hshape3]
    exact readU64BE_at _ _ f.index.length hilen
  have hpos4 : (fileBytes f).length - 40 + 32
      = ((f.payload ++ f.index.flatMap (fun e => u64be e.1 ++ u64be e.2))
          ++ u64be f.n ++ u64be f.p ++ u64be f.endOfData ++ u64be f.index.length).length := by
    simp only [List.length_append, u64be_length]
    omega
  have hshape4 : fileBytes f
      = ((f.payload ++ f.index.flatMap (fun e => u64be e.1 ++ u64be e.2))
          ++ u64be f.n ++ u64be f.p ++ u64be f.endOfData ++ u64be f.index.length)
        ++ gcsMagic ++ [] := by
    simp [fileBytes, List.append_assoc]
  have hM : readBytesAt (fileBytes f) ((fileBytes f).length - 40 + 32) 8 = some gcsMagic := by
    rw [hpos4]
    conv_lhs => rw [hshape4]
    rw [show (8 : Nat) = gcsMagic.length from rfl]
    exact readBytesAt_append gcsMagic _ []
  have hshapeP : fileBytes f
      = f.payload ++ f.index.flatMap (fun e => u64be e.1 ++ u64be e.2)
        ++ (u64be f.n ++ u64be f.p ++ u64be f.endOfData ++ u64be f.index.length
          ++ gcsMagic) := by
    simp [fileBytes, List.append_assoc]
  have hPairs : readPairs (fileBytes f) f.endOfData f.index.length = some f.index := by
    rw [heod]
    conv_lhs => rw [hshapeP]
    exact readPairs_at f.index f.payload _ hvals
  unfold initReader
  rw [if_neg (by omega : ¬ (fileBytes f).length < 40)]
  rw [hA, hB, hC, hD]
  simp only
  rw [if_pos hM, hPairs, clog2_eq_clog]

theorem seekBits_spec (data : List Nat) (hdata : ∀ b ∈ data, b < 256) (bp : Nat)
    (hbp : bp ≤ 8 * data.length) :
    ∃ s, seekBits data bp = some s ∧ RInv s ∧
      remStream data s = (bytesBits data).drop bp := by
  have hinv0 : RInv ⟨bp / 8, 0, 0⟩ :=
    ⟨by show (0 : Nat) ≤ 8; norm_num, by show (0 : Nat) < 2 ^ 0; norm_num⟩
  have hrem0 : remStream data ⟨bp / 8, 0, 0⟩ = (bytesBits data).drop (8 * (bp / 8)) := by
    unfold remStream
    rw [show natBits 0 0 = ([] : List Bool) from rfl, List.nil_append]
    exact bytesBits_drop (bp / 8) data
  by_cases h8 : bp % 8 = 0
  · refine ⟨⟨bp / 8, 0, 0⟩, ?_, hinv0, ?_⟩
    · simp [seekBits, h8]
    · rw [hrem0]
      congr 1
      omega
  · have hlen : bp % 8 ≤ (remStream data ⟨bp / 8, 0, 0⟩).length := by
      rw [hrem0, List.length_drop, bytesBits_length data]
      omega
    obtain ⟨s2, heq, hinv2, hrem2⟩ := readBits_spec data hdata ⟨bp / 8, 0, 0⟩ (bp % 8)
      hinv0 (by omega) hlen
    refine ⟨s2, ?_, hinv2, ?_⟩
    · simp only [seekBits, if_neg h8]
      rw [heq]
    · rw [hrem2, hrem0, List.drop_drop]
      congr 1
      omega

theorem scanLoop_reaches (data : List Nat) (hdata : ∀ b ∈ data, b < 256)
    (p log2p : Nat) (hp : 1 ≤ p) (hlp : p ≤ 2 ^ log2p) (hl64 : log2p ≤ 64) :
    ∀ (k : Nat) (ds : List Nat) (fuel last h : Nat) (s : RState) (suffix : List Bool),
    RInv s → remStream data s = ds.flatMap (cwBits p log2p) ++ suffix →
    k ≤ ds.length → last + (ds.take k).sum = h → h < 2 ^ 64 →
    k + 1 ≤ fuel →
    scanLoop data p log2p fuel last h s = .ok true := by
  intro k
  induction k with
  | zero =>
    intro ds fuel last h s suffix hinv hrem hk hsum hh hf
    obtain ⟨fuel, rfl⟩ : ∃ f2, fuel = f2 + 1 := ⟨fuel - 1, by omega⟩
    simp only [List.take_zero, List.sum_nil, Nat.add_zero] at hsum
    subst hsum
    simp only [scanLoop, if_neg (by omega : ¬ last < last)]
    simp
  | succ k ih =>
    intro ds fuel last h s suffix hinv hrem hk hsum hh hf
    obtain ⟨fuel, rfl⟩ : ∃ f2, fuel = f2 + 1 := ⟨fuel - 1, by omega⟩
    by_cases hlh : last < h
    · cases ds with
      | nil => simp at hk
      | cons d rest =>
        have hrem2 : remStream data s
            = cwBits p log2p d ++ (rest.flatMap (cwBits p log2p) ++ suffix) := by
          rw [hrem]
          simp [List.flatMap_cons, List.append_assoc]
        have htksum : (List.take (k + 1) (d :: rest)).sum = d + (rest.take k).sum := by
          simp
        have hsum2 : last + d + (rest.take k).sum = h := by omega
        have hlast : last + d < 2 ^ 64 := by omega
        obtain ⟨s2, heqU, s3, heqR, hinv3, hrem3, hval⟩ :=
          decode_step data hdata p log2p d last s _ hinv hrem2
            (lt_of_lt_of_le (Nat.mod_lt _ (by omega)) hlp) hl64 hlast
        have hnov : ¬ 2 ^ 64 ≤ last + p * (d / p) + d % p := by
          rw [hval]
          omega
        have hstep : scanLoop data p log2p (fuel + 1) last h s
            = scanLoop data p log2p fuel (last + p * (d / p) + d % p) h s3 := by
          simp only [scanLoop, if_pos hlh]
          rw [heqU]
          show (match readBits data s2 log2p with
            | none => Except.error GErr.eof
            | some r2 =>
              if 2 ^ 64 ≤ last + p * (d / p) + r2.1 then Except.error GErr.overflow
              else scanLoop data p log2p fuel (last + p * (d / p) + r2.1) h r2.2) = _
          rw [heqR]
          show (if 2 ^ 64 ≤ last + p * (d / p) + d % p then Except.error GErr.overflow
            else scanLoop data p log2p fuel (last + p * (d / p) + d % p) h s3) = _
          rw [if_neg hnov]
        rw [hstep, hval]
        exact ih rest fuel (last + d) h s3 suffix hinv3 hrem3 (by simpa using hk)
          hsum2 hh (by omega)
    · have hle : last ≤ h := by
        have h1 : last ≤ last + (List.take (k + 1) ds).sum := Nat.le_add_right _ _
        omega
      have heqlh : last = h := by omega
      simp only [scanLoop, if_neg hlh]
      rw [heqlh]
      simp

theorem mem_of_getLast?_eq {α : Type} (l : List α) (a : α) (h : l.getLast? = some a) :
    a ∈ l := by
  have hne : l ≠ [] := by
    intro he
    rw [he] at h
    simp at h
  rw [List.getLast?_eq_getLast l hne] at h
  have hmem := List.getLast_mem hne
  rwa [Option.some_inj.mp h] at hmem

theorem buildGCS_spec (S : List Nat) (p g : Nat) (f : GCSFile)
    (hb : buildGCS S p g = .ok f) :
    f.n = S.length ∧ f.p = p ∧ S.length * p < 2 ^ 64 ∧ (S ≠ [] → S.length * p ≠ 0) ∧
    1 ≤ g ∧ (∀ byte ∈ f.payload, byte < 256) ∧ f.endOfData = f.payload.length ∧
    (∃ pad, bytesBits f.payload
      = (deltas 0 (vsOf S p)).flatMap (cwBits p (Nat.clog 2 p))
        ++ List.replicate pad false) ∧
    (∀ e ∈ f.index, ∃ k, k < (vsOf S p).length ∧ 0 < k ∧ k % g = 0 ∧
      e = ((vsOf S p)[k]!,
        (((deltas 0 (vsOf S p)).take (k + 1)).flatMap (cwBits p (Nat.clog 2 p))).length)) ∧
    ((deltas 0 (vsOf S p)).flatMap (cwBits p (Nat.clog 2 p))).length < 2 ^ 64 ∧
    f.payload.length < 2 ^ 64 ∧
    f.index.length ≤ (vsOf S p).length := by
  by_cases hnp64 : S.length * p < 2 ^ 64
  · rw [buildGCS_eq S p g hnp64] at hb
    exact finishB_spec ⟨[], S.length, p, g, S⟩ f hb
  · simp only [buildGCS, newGCSBuilder, if_neg hnp64] at hb
    exact absurd hb (by simp)

theorem gcsExists_mk (data : List Nat) (n p eod ilen log2p x : Nat)
    (index : List (Nat × Nat)) :
    gcsExists ⟨data, n, p, eod, ilen, index, log2p⟩ x
      = if n * p = 0 then .error .divByZero
        else
          match idxLookup index (x % (n * p)) with
          | none => .ok true
          | some e =>
            match seekBits data e.2 with
            | none => .error .eof
            | some s => scanLoop data p log2p (8 * data.length + 16) e.1 (x % (n * p)) s :=
  rfl

/-- C1 (amended): for every multiset `S` of `u64` hashes and every
`P ≤ 2 ^ 46` — the range on which the program's float suffix width
`ceil(log2 P)` provably equals `clog2 P` (see `clog2`) — if a GCS file is
built by calling `GCSBuilder::add` on each element of `S` and then
`GCSBuilder::finish`, then for every `x ∈ S`, `GCSReader::exists(x)` on that
file (after `initialize`) returns `Ok(true)`: no false negatives.  For larger
`P` the claim is false of the program: see
`float_truncation_false_negative`, where the float width truncates a
remainder and `exists` returns an EOF error for an added element. -/
theorem gcs_no_false_negatives (S : List Nat) (p g x : Nat) (f : GCSFile)
    (hx : x ∈ S) (hp46 : p ≤ 2 ^ 46) (hb : buildGCS S p g = .ok f) :
    queryGCS (fileBytes f) x = .ok true := by
  obtain ⟨hfn, hfp, hnp, hnz, hg, hpayb, heod, ⟨pad, hbits⟩, hidx, hflatlt, hpllt, hilen⟩ :=
    buildGCS_spec S p g f hb
  have hSne : S ≠ [] := by
    intro he
    rw [he] at hx
    exact absurd hx (List.not_mem_nil x)
  have hnpz : S.length * p ≠ 0 := hnz hSne
  have hp1 : 1 ≤ p := by
    rcases Nat.eq_zero_or_pos p with h0 | h0
    · exact absurd (by rw [h0]; ring) hnpz
    · exact h0
  have hn1 : 1 ≤ S.length := by
    rcases Nat.eq_zero_or_pos S.length with h0 | h0
    · exact absurd (by rw [h0]; ring) hnpz
    · exact h0
  have hp64 : p < 2 ^ 64 := by
    have h1 : p ≤ S.length * p := Nat.le_mul_of_pos_left p hn1
    omega
  have hn64 : S.length < 2 ^ 64 := by
    have h1 : S.length ≤ S.length * p := Nat.le_mul_of_pos_right S.length hp1
    omega
  have hlp : p ≤ 2 ^ Nat.clog 2 p := Nat.le_pow_clog (by norm_num) p
  have hl64 : Nat.clog 2 p ≤ 64 :=
    (Nat.le_pow_iff_clog_le (by norm_num)).mp (le_of_lt hp64)
  have hdata : ∀ b ∈ fileBytes f, b < 256 := fileBytes_lt f hpayb
  -- the reduced sorted values and delta stream
  have hvslt : ∀ y ∈ vsOf S p, y < S.length * p := by
    intro y hy
    have hy2 : y ∈ S.map (· % (S.length * p)) := (sortDedup_mem _ _).mp hy
    obtain ⟨z, _, hz⟩ := List.mem_map.mp hy2
    rw [← hz]
    exact Nat.mod_lt z (by omega)
  have hchain : List.Chain (· ≤ ·) 0 (vsOf S p) :=
    chain_le_of_pairwise_lt _ (sortDedup_pairwise _)
  have hvsnodup : (vsOf S p).Nodup :=
    (sortDedup_pairwise _).imp (fun hlt => Nat.ne_of_lt hlt)
  have hvslen : (vsOf S p).length ≤ S.length * p := by
    have hsub : (vsOf S p).toFinset ⊆ Finset.range (S.length * p) := by
      intro y hy
      rw [List.mem_toFinset] at hy
      rw [Finset.mem_range]
      exact hvslt y hy
    have hcard := Finset.card_le_card hsub
    rw [Finset.card_range] at hcard
    rwa [List.toFinset_card_of_nodup hvsnodup] at hcard
  have hdsl : (deltas 0 (vsOf S p)).length = (vsOf S p).length := deltas_length _ _
  -- the queried value is among the encoded values
  have hhvs : x % (S.length * p) ∈ vsOf S p :=
    (sortDedup_mem _ _).mpr (List.mem_map_of_mem _ hx)
  obtain ⟨m, hm, hvm⟩ := List.getElem_of_mem hhvs
  have hvm! : (vsOf S p)[m]! = x % (S.length * p) := by
    rw [getElem!_pos (vsOf S p) m hm]
    exact hvm
  have hh_eq : x % (S.length * p) = ((deltas 0 (vsOf S p)).take (m + 1)).sum := by
    have hds := deltas_take_sum (vsOf S p) 0 hchain m hm
    rw [hvm!] at hds
    omega
  have hhlt : x % (S.length * p) < S.length * p := Nat.mod_lt x (by omega)
  -- payload length facts
  have hpaybits : 8 * f.payload.length
      = ((deltas 0 (vsOf S p)).flatMap (cwBits p (Nat.clog 2 p))).length + pad := by
    have h1 := bytesBits_length f.payload
    rw [hbits] at h1
    simp only [List.length_append, List.length_replicate] at h1
    omega
  have hfile_len : f.payload.length ≤ (fileBytes f).length := by
    unfold fileBytes
    simp only [List.append_assoc, List.length_append]
    omega
  -- byte size bounds for the footer round-trip
  have hA := initReader_built f (hfn ▸ hn64) (hfp ▸ hp64)
    (by omega) (heod ▸ hpllt) heod
    (by
      intro e he
      obtain ⟨k, hk, _, _, hke⟩ := hidx e he
      constructor
      · rw [hke]
        have h1 : (vsOf S p)[k]! ∈ vsOf S p := by
          rw [getElem!_pos (vsOf S p) k hk]
          exact List.getElem_mem hk
        have := hvslt _ h1
        omega
      · rw [hke]
        show (((deltas 0 (vsOf S p)).take (k + 1)).flatMap (cwBits p (Nat.clog 2 p))).length
            < 2 ^ 64
        have hsplit := flatMap_take_drop p (Nat.clog 2 p) (deltas 0 (vsOf S p)) (k + 1)
        have h2 : ((deltas 0 (vsOf S p)).flatMap (cwBits p (Nat.clog 2 p))).length
            = (((deltas 0 (vsOf S p)).take (k + 1)).flatMap (cwBits p (Nat.clog 2 p))).length
              + (((deltas 0 (vsOf S p)).drop (k + 1)).flatMap (cwBits p (Nat.clog 2 p))).length := by
          rw [hsplit, List.length_append]
        omega)
  unfold queryGCS
  rw [hA]
  show gcsExists ⟨fileBytes f, f.n, f.p, f.endOfData, f.index.length,
    (0, 0) :: f.index, Nat.clog 2 f.p⟩ x = .ok true
  rw [gcsExists_mk]
  have hnnp : f.n * f.p = S.length * p := by rw [hfn, hfp]
  rw [hnnp, hfp, if_neg hnpz]
  cases hlook : idxLookup ((0, 0) :: f.index) (x % (S.length * p)) with
  | none =>
    rfl
  | some e =>
    show (match seekBits (fileBytes f) e.2 with
      | none => Except.error GErr.eof
      | some s => scanLoop (fileBytes f) p (Nat.clog 2 p)
          (8 * (fileBytes f).length + 16) e.1 (x % (S.length * p)) s) = Except.ok true
    -- the chosen entry is a valid checkpoint strictly below the target
    unfold idxLookup at hlook
    by_cases hany : ((0, 0) :: f.index).any (fun e2 => e2.1 = x % (S.length * p))
    · rw [if_pos hany] at hlook
      exact absurd hlook (by simp)
    · rw [if_neg hany] at hlook
      have hallne : ∀ e2 ∈ (0, 0) :: f.index, ¬ e2.1 = x % (S.length * p) := by
        intro e2 he2 heq2
        apply hany
        rw [List.any_eq_true]
        exact ⟨e2, he2, by simp [heq2]⟩
      have hne0 : x % (S.length * p) ≠ 0 := by
        intro h0
        exact hallne (0, 0) (List.mem_cons_self _ _) (by simp [h0])
      have hmem_lt : e ∈ (0, 0) :: f.index ∧ e.1 < x % (S.length * p) := by
        cases hgl : (((0, 0) :: f.index).filter
            (fun e2 => e2.1 < x % (S.length * p))).getLast? with
        | none =>
          rw [hgl] at hlook
          have he00 : (0, 0) = e := by
            have := Option.some_inj.mp hlook
            simpa using this
          refine ⟨?_, ?_⟩
          · rw [← he00]
            exact List.mem_cons_self _ _
          · rw [← he00]
            show 0 < x % (S.length * p)
            omega
        | some e3 =>
          rw [hgl] at hlook
          have he3 : e3 = e := Option.some_inj.mp hlook
          subst he3
          have hmf := mem_of_getLast?_eq _ _ hgl
          rw [List.mem_filter] at hmf
          refine ⟨hmf.1, by simpa using hmf.2⟩
      obtain ⟨hmem, helt⟩ := hmem_lt
      -- decompose the entry into its position in the delta stream
      obtain ⟨j, hjle, he1, he2⟩ :
          ∃ j, j ≤ (vsOf S p).length ∧
            e.1 = ((deltas 0 (vsOf S p)).take j).sum ∧
            e.2 = (((deltas 0 (vsOf S p)).take j).flatMap (cwBits p (Nat.clog 2 p))).length := by
        rcases List.mem_cons.mp hmem with h00 | hfi
        · exact ⟨0, by omega, by rw [h00]; rfl, by rw [h00]; rfl⟩
        · obtain ⟨k, hk, hk0, hkg, hke⟩ := hidx e hfi
          refine ⟨k + 1, by omega, ?_, by rw [hke]⟩
          rw [hke]
          show (vsOf S p)[k]! = ((deltas 0 (vsOf S p)).take (k + 1)).sum
          have hds := deltas_take_sum (vsOf S p) 0 hchain k hk
          omega
      -- the entry precedes the target in the stream
      have hjm : j < m + 1 := by
        by_contra hge
        push_neg at hge
        have hmono := sum_take_mono (deltas 0 (vsOf S p)) (m + 1) j hge
        omega
      -- seek to the checkpoint offset
      have hboff : e.2 ≤ 8 * (fileBytes f).length := by
        have hsplit := flatMap_take_drop p (Nat.clog 2 p) (deltas 0 (vsOf S p)) j
        have h2 : ((deltas 0 (vsOf S p)).flatMap (cwBits p (Nat.clog 2 p))).length
            = (((deltas 0 (vsOf S p)).take j).flatMap (cwBits p (Nat.clog 2 p))).length
              + (((deltas 0 (vsOf S p)).drop j).flatMap (cwBits p (Nat.clog 2 p))).length := by
          rw [hsplit, List.length_append]
        omega
      obtain ⟨s0, hseek, hinv0, hrem0⟩ := seekBits_spec (fileBytes f) hdata e.2 hboff
      rw [hseek]
      -- the remaining stream at the checkpoint is the delta suffix plus junk
      have hfe : fileBytes f
          = f.payload ++ (f.index.flatMap (fun e => u64be e.1 ++ u64be e.2)
            ++ (u64be f.n ++ (u64be f.p ++ (u64be f.endOfData
              ++ (u64be f.index.length ++ gcsMagic))))) := by
        simp [fileBytes, List.append_assoc]
      have hremfin : remStream (fileBytes f) s0
          = ((deltas 0 (vsOf S p)).drop j).flatMap (cwBits p (Nat.clog 2 p))
            ++ (List.replicate pad false
              ++ bytesBits (f.index.flatMap (fun e => u64be e.1 ++ u64be e.2)
                ++ (u64be f.n ++ (u64be f.p ++ (u64be f.endOfData
                  ++ (u64be f.index.length ++ gcsMagic)))))) := by
        rw [hrem0]
        conv_lhs => rw [hfe]
        rw [bytesBits_append, hbits,
          flatMap_take_drop p (Nat.clog 2 p) (deltas 0 (vsOf S p)) j]
        rw [List.append_assoc, List.append_assoc, he2]
        exact List.drop_left _ _
      -- run the scan
      have hsum_scan : e.1 + (((deltas 0 (vsOf S p)).drop j).take (m + 1 - j)).sum
          = x % (S.length * p) := by
        have hadd := sum_take_add (deltas 0 (vsOf S p)) j (m + 1 - j)
        rw [show j + (m + 1 - j) = m + 1 from by omega] at hadd
        omega
      have hklen : m + 1 - j ≤ ((deltas 0 (vsOf S p)).drop j).length := by
        rw [List.length_drop]
        omega
      have hfuel : (m + 1 - j) + 1 ≤ 8 * (fileBytes f).length + 16 := by
        have hge := flatMap_cw_ge p (Nat.clog 2 p) (deltas 0 (vsOf S p))
        omega
      exact scanLoop_reaches (fileBytes f) hdata p (Nat.clog 2 p) hp1 hlp hl64
        (m + 1 - j) ((deltas 0 (vsOf S p)).drop j) (8 * (fileBytes f).length + 16)
        e.1 (x % (S.length * p)) s0 _ hinv0 hremfin hklen hsum_scan (by omega) hfuel

/-- Concrete instance of `gcs_no_false_negatives`: building from
`[5, 12, 5, 27]` with `p = 16` and index granularity `2`, then querying `12`,
returns `Ok(true)`. -/
theorem gcs_no_false_negatives_witness :
    (12 ∈ [5, 12, 5, 27] ∧ (16 : Nat) ≤ 2 ^ 46 ∧
      buildGCS [5, 12, 5, 27] 16 2 = .ok ⟨[41, 222], [(27, 15)], 4, 16, 2⟩) ∧
    queryGCS (fileBytes ⟨[41, 222], [(27, 15)], 4, 16, 2⟩) 12 = Except.ok true :=
  ⟨⟨by decide, by decide, by rfl⟩,
    gcs_no_false_negatives [5, 12, 5, 27] 16 2 12 ⟨[41, 222], [(27, 15)], 4, 16, 2⟩
      (by decide) (by decide) (by rfl)⟩

/-- Counterexample to C1 as stated (no restriction on `P`): at
`P = 2 ^ 53 + 1` the program's suffix width is exactly `53`, not
`clog2 P = 54` — the `u64 → f64` cast rounds the tie `2 ^ 53 + 1` half-to-even
down to `2 ^ 53`, and `log2` of an exact power of two is exactly `53.0` (this
holds in every profile and for every faithful `libm`; no correct rounding of
an inexact case is involved).  With that width, building from `S = [2 ^ 53]`
(`N = 1`, `G = 1`) truncates the 54-bit remainder `2 ^ 53` to `0` via
`value & MASKS[53]` in `write_bits`, and querying the added element `2 ^ 53`
returns the EOF error — a false negative.  The `clog2`-width model instead
answers `Ok(true)` at the same input, which is why width-dependent theorems
are restricted to `p ≤ 2 ^ 46`. -/
theorem float_truncation_false_negative :
    clog2 (2 ^ 53 + 1) = 54 ∧
    buildQueryL (fun _ => 53) [2 ^ 53] (2 ^ 53 + 1) 1 (2 ^ 53) = .ok (.error .eof) ∧
    buildQueryL clog2 [2 ^ 53] (2 ^ 53 + 1) 1 (2 ^ 53) = .ok (.ok true) := by
  refine ⟨by decide, by decide, by decide⟩

/-- Concrete instance of `bitio_roundtrip`: the schedule
`[(3, 5), (1, 0), (8, 201), (13, 4097)]` round-trips. -/
theorem bitio_roundtrip_witness :
    (∀ nv ∈ [(3, 5), (1, 0), (8, 201), (13, 4097)], nv.1 ≤ 64 ∧ nv.2 < 2 ^ nv.1) ∧
    ∃ s2, runReads
        ((runWrites wInit [(3, 5), (1, 0), (8, 201), (13, 4097)]).2
          ++ (flushW (runWrites wInit [(3, 5), (1, 0), (8, 201), (13, 4097)]).1).2.1)
        rInit ([(3, 5), (1, 0), (8, 201), (13, 4097)].map Prod.fst)
      = some ([(3, 5), (1, 0), (8, 201), (13, 4097)].map Prod.snd, s2) :=
  ⟨by decide, bitio_roundtrip [(3, 5), (1, 0), (8, 201), (13, 4097)] (by decide)⟩

/-- C3: the Golomb round-trip is claimed for every `P ≥ 1` and `v ≥ 0`, with
the encoder emitting the unary run in chunks of at most 63 bits when
`q = v / P ≥ 63`.  The code has no such chunking: `GolombEncoder::encode`
computes the unary prefix as the single expression `(1u64 << (q + 1)) - 2`,
so already for `P = 1`, `v = 63` (hence `q = 63` and shift amount `64`) the
shift overflows the `u64` and the encoder panics instead of producing a
codeword; `encodeG` models the panic as `none`. -/
theorem golomb_encode_q63_panics : encodeG 1 (clog2 1) wInit 63 = none := by decide

/-- Counterexample to C4 as stated: building from no values with `P = 16`,
`G = 1` succeeds, but querying `5` does not return `Ok(false)` — it dies with
the division by zero in `h = target % (self.n * self.p)` (`n = 0`). -/
theorem empty_build_query_cex :
    buildQuery [] 16 1 5 = .ok (.error .divByZero) := by decide

/-- C4 (amended): with `N = 0` declared and no `add` calls, `finish` does
succeed and produces a zero-length payload, an empty index and only the
footer; but on that file `exists(x)` does not return `Ok(false)`: it panics
with a division by zero, because `n = 0` makes the modulus `n * p` in
`h = target % (n * p)` zero. -/
theorem empty_build_footer_only (p g x : Nat) (hg : 1 ≤ g) (hp : p < 2 ^ 64) :
    buildGCS [] p g = .ok ⟨[], [], 0, p, 0⟩ ∧
    queryGCS (fileBytes (⟨[], [], 0, p, 0⟩ : GCSFile)) x = .error .divByZero := by
  constructor
  · rw [buildGCS_eq [] p g (by simp)]
    unfold finishB
    simp only [List.length_nil, Nat.zero_mul, List.map_nil]
    rw [if_neg (by omega)]
    rw [if_neg (by simp)]
    rw [if_neg (by omega)]
    rfl
  · have hA := initReader_built ⟨[], [], 0, p, 0⟩ (by norm_num) hp (by norm_num)
      (by norm_num) (by simp) (by simp)
    unfold queryGCS
    rw [hA]
    show gcsExists ⟨fileBytes ⟨[], [], 0, p, 0⟩, 0, p, 0, 0, [(0, 0)], Nat.clog 2 p⟩ x
      = .error .divByZero
    rw [gcsExists_mk]
    rw [if_pos (by simp)]

/-- Concrete instance of `empty_build_footer_only` at `P = 16`, `G = 1`,
query `5`. -/
theorem empty_build_footer_only_witness :
    (1 ≤ 1 ∧ 16 < 2 ^ 64) ∧
    buildGCS [] 16 1 = .ok ⟨[], [], 0, 16, 0⟩ ∧
    queryGCS (fileBytes (⟨[], [], 0, 16, 0⟩ : GCSFile)) 5 = .error .divByZero :=
  ⟨⟨by decide, by decide⟩, empty_build_footer_only 16 1 5 (by decide) (by decide)⟩

/-- C5: the decode scan in `exists` has no `end_of_data` check at all — the
`while last < h` loop keeps pulling bits after the payload is exhausted,
straight through the index and footer bytes.  Building from `[0]` with
`P = 2 ^ 40`, `G = 1` and querying `2 ^ 40 - 1` (a reduced hash above the
largest encoded value `0`) makes the reader run off the end of the file and
return the EOF error instead of `Ok(false)`. -/
theorem exists_scan_eof_past_payload :
    buildQuery [0] (2 ^ 40) 1 (2 ^ 40 - 1) = .ok (.error .eof) := by decide

/-- Counterexample to C6 as stated: building from `[5, 12, 5, 27]` with
`P = 16`, `G = 2` stores the index entry `(27, 15)`, but the cumulative bit
count of the encoded payload immediately before the codeword of `27` is `10`
(two 5-bit codewords); `15` is the count immediately *after* that item's
codeword. -/
theorem index_offset_cex :
    (buildGCS [5, 12, 5, 27] 16 2).map (fun f => f.index) = .ok [(27, 15)] ∧
    (((deltas 0 (vsOf [5, 12, 5, 27] 16)).take 2).flatMap
      (cwBits 16 (Nat.clog 2 16))).length = 10 ∧
    (15 : Nat) ≠ 10 := by
  refine ⟨by decide, ?_, by decide⟩
  rw [← clog2_eq_clog]
  decide

/-- C6 (amended): for every build with granularity `G > 0` and `P ≤ 2 ^ 46` —
the range on which the program's float suffix width equals `clog2 P` (see
`clog2`; at e.g. `P = 2 ^ 53 + 1` the program uses 53-bit suffixes, its
offsets differ from the `clog2` count, and the decoded delta is truncated) —
each stored index entry `(value, bit_offset)` has `value` equal to the
reduced hash at a checkpoint `k` (`k > 0`, `k % G = 0`) and `bit_offset`
equal to the cumulative bit count immediately *after* that item's codeword
(the entry is pushed after `total_bits` is updated), so seeking to
`bit_offset` and decoding one codeword yields the delta from the checkpoint's
value to the *next* value. -/
theorem index_offset_after_item (S : List Nat) (p g : Nat) (f : GCSFile)
    (hp46 : p ≤ 2 ^ 46) (hb : buildGCS S p g = .ok f) :
    ∀ e ∈ f.index, ∃ k, k < (vsOf S p).length ∧ 0 < k ∧ k % g = 0 ∧
      e.1 = (vsOf S p)[k]! ∧
      e.2 = (((deltas 0 (vsOf S p)).take (k + 1)).flatMap (cwBits p (Nat.clog 2 p))).length ∧
      (k + 1 < (vsOf S p).length →
        decodeOneAt (fileBytes f) p (Nat.clog 2 p) e.2
          = .ok ((vsOf S p)[k + 1]! - (vsOf S p)[k]!)) := by
  obtain ⟨hfn, hfp, hnp, hnz, hg, hpayb, heod, ⟨pad, hbits⟩, hidx, hflatlt, hpllt, hilen⟩ :=
    buildGCS_spec S p g f hb
  intro e he
  obtain ⟨k, hk, hk0, hkg, hke⟩ := hidx e he
  have he1 : e.1 = (vsOf S p)[k]! := by rw [hke]
  have he2 : e.2
      = (((deltas 0 (vsOf S p)).take (k + 1)).flatMap (cwBits p (Nat.clog 2 p))).length := by
    rw [hke]
  refine ⟨k, hk, hk0, hkg, he1, he2, ?_⟩
  intro hk1
  have hSne : S ≠ [] := by
    intro hSe
    subst hSe
    have hv0 : vsOf ([] : List Nat) p = [] := rfl
    rw [hv0] at hk
    simp at hk
  have hnpz : S.length * p ≠ 0 := hnz hSne
  have hp1 : 1 ≤ p := by
    rcases Nat.eq_zero_or_pos p with h0 | h0
    · exact absurd (by rw [h0]; ring) hnpz
    · exact h0
  have hp64 : p < 2 ^ 64 := by
    have h1 : p ≤ S.length * p := Nat.le_mul_of_pos_left p (by
      rcases Nat.eq_zero_or_pos S.length with h0 | h0
      · exact absurd (by rw [h0]; ring) hnpz
      · exact h0)
    omega
  have hlp : p ≤ 2 ^ Nat.clog 2 p := Nat.le_pow_clog (by norm_num) p
  have hl64 : Nat.clog 2 p ≤ 64 :=
    (Nat.le_pow_iff_clog_le (by norm_num)).mp (le_of_lt hp64)
  have hdata : ∀ b ∈ fileBytes f, b < 256 := fileBytes_lt f hpayb
  have hvslt : ∀ y ∈ vsOf S p, y < S.length * p := by
    intro y hy
    have hy2 : y ∈ S.map (· % (S.length * p)) := (sortDedup_mem _ _).mp hy
    obtain ⟨z, _, hz⟩ := List.mem_map.mp hy2
    rw [← hz]
    exact Nat.mod_lt z (by omega)
  have hchain : List.Chain (· ≤ ·) 0 (vsOf S p) :=
    chain_le_of_pairwise_lt _ (sortDedup_pairwise _)
  have hdslen : (deltas 0 (vsOf S p)).length = (vsOf S p).length := deltas_length _ _
  have hdropne : (deltas 0 (vsOf S p)).drop (k + 1) ≠ [] := by
    intro hnil
    have hlen := congrArg List.length hnil
    rw [List.length_drop, hdslen] at hlen
    simp at hlen
    omega
  obtain ⟨d, rest, hdrop⟩ := List.exists_cons_of_ne_nil hdropne
  have hd : (vsOf S p)[k]! + d = (vsOf S p)[k + 1]!
      ∧ d = (vsOf S p)[k + 1]! - (vsOf S p)[k]! := by
    have h1 := deltas_take_sum (vsOf S p) 0 hchain k (by omega)
    have h2 := deltas_take_sum (vsOf S p) 0 hchain (k + 1) hk1
    have h3 := sum_take_add (deltas 0 (vsOf S p)) (k + 1) 1
    rw [hdrop] at h3
    simp at h3
    omega
  have hvk1mem : (vsOf S p)[k + 1]! ∈ vsOf S p := by
    rw [getElem!_pos (vsOf S p) (k + 1) hk1]
    exact List.getElem_mem hk1
  have hdlt : d < 2 ^ 64 := by
    have h1 := hvslt _ hvk1mem
    omega
  have hpaybits : 8 * f.payload.length
      = ((deltas 0 (vsOf S p)).flatMap (cwBits p (Nat.clog 2 p))).length + pad := by
    have h1 := bytesBits_length f.payload
    rw [hbits] at h1
    simp only [List.length_append, List.length_replicate] at h1
    omega
  have hfile_len : f.payload.length ≤ (fileBytes f).length := by
    unfold fileBytes
    simp only [List.append_assoc, List.length_append]
    omega
  have hboff : e.2 ≤ 8 * (fileBytes f).length := by
    have hsplit := flatMap_take_drop p (Nat.clog 2 p) (deltas 0 (vsOf S p)) (k + 1)
    have h2 : ((deltas 0 (vsOf S p)).flatMap (cwBits p (Nat.clog 2 p))).length
        = (((deltas 0 (vsOf S p)).take (k + 1)).flatMap (cwBits p (Nat.clog 2 p))).length
          + (((deltas 0 (vsOf S p)).drop (k + 1)).flatMap (cwBits p (Nat.clog 2 p))).length := by
      rw [hsplit, List.length_append]
    omega
  obtain ⟨s0, hseek, hinv0, hrem0⟩ := seekBits_spec (fileBytes f) hdata e.2 hboff
  have hfe : fileBytes f
      = f.payload ++ (f.index.flatMap (fun e => u64be e.1 ++ u64be e.2)
        ++ (u64be f.n ++ (u64be f.p ++ (u64be f.endOfData
          ++ (u64be f.index.length ++ gcsMagic))))) := by
    simp [fileBytes, List.append_assoc]
  have hremfin : remStream (fileBytes f) s0
      = cwBits p (Nat.clog 2 p) d
        ++ (rest.flatMap (cwBits p (Nat.clog 2 p))
          ++ (List.replicate pad false
            ++ bytesBits (f.index.flatMap (fun e => u64be e.1 ++ u64be e.2)
              ++ (u64be f.n ++ (u64be f.p ++ (u64be f.endOfData
                ++ (u64be f.index.length ++ gcsMagic))))))) := by
    rw [hrem0]
    conv_lhs => rw [hfe]
    rw [bytesBits_append, hbits,
      flatMap_take_drop p (Nat.clog 2 p) (deltas 0 (vsOf S p)) (k + 1)]
    rw [List.append_assoc, List.append_assoc, he2]
    rw [List.drop_left _ _, hdrop, List.flatMap_cons, List.append_assoc]
  obtain ⟨s2, hU, s3, hR, hinv3, hrem3, hsum⟩ :=
    decode_step (fileBytes f) hdata p (Nat.clog 2 p) d 0 s0 _ hinv0 hremfin
      (lt_of_lt_of_le (Nat.mod_lt d (by omega)) hlp) hl64 (by omega)
  show decodeOneAt (fileBytes f) p (Nat.clog 2 p) e.2 = _
  unfold decodeOneAt
  rw [hseek]
  show (match unaryAdd (fileBytes f) p (8 * (fileBytes f).length + 16) 0 s0 with
    | .error e => (.error e : Except GErr Nat)
    | .ok r =>
      match readBits (fileBytes f) r.2 (Nat.clog 2 p) with
      | none => .error .eof
      | some r2 =>
        if 2 ^ 64 ≤ r.1 + r2.1 then .error .overflow
        else .ok (r.1 + r2.1)) = _
  rw [hU]
  show (match readBits (fileBytes f) s2 (Nat.clog 2 p) with
    | none => (.error .eof : Except GErr Nat)
    | some r2 =>
      if 2 ^ 64 ≤ 0 + p * (d / p) + r2.1 then .error .overflow
      else .ok (0 + p * (d / p) + r2.1)) = _
  rw [hR]
  show (if 2 ^ 64 ≤ 0 + p * (d / p) + d % p then (.error .overflow : Except GErr Nat)
    else .ok (0 + p * (d / p) + d % p)) = _
  rw [if_neg (by omega)]
  rw [show 0 + p * (d / p) + d % p = (vsOf S p)[k + 1]! - (vsOf S p)[k]! from by omega]

/-- Concrete instance of `index_offset_after_item`: the build from
`[5, 12, 5, 27, 40]` with `P = 16`, `G = 2` stores the entry `(27, 15)`, and
decoding one codeword at bit offset `15` yields `13 = 40 - 27`, the delta to
the next value. -/
theorem index_offset_after_item_witness :
    ((16 : Nat) ≤ 2 ^ 46 ∧
      buildGCS [5, 12, 5, 27, 40] 16 2 = .ok ⟨[41, 222, 208], [(27, 15)], 5, 16, 3⟩) ∧
    ∃ k, k < (vsOf [5, 12, 5, 27, 40] 16).length ∧ 0 < k ∧ k % 2 = 0 ∧
      (27, 15).1 = (vsOf [5, 12, 5, 27, 40] 16)[k]! ∧
      (27, 15).2 = (((deltas 0 (vsOf [5, 12, 5, 27, 40] 16)).take (k + 1)).flatMap
        (cwBits 16 (Nat.clog 2 16))).length ∧
      (k + 1 < (vsOf [5, 12, 5, 27, 40] 16).length →
        decodeOneAt (fileBytes ⟨[41, 222, 208], [(27, 15)], 5, 16, 3⟩) 16
            (Nat.clog 2 16) (27, 15).2
          = .ok ((vsOf [5, 12, 5, 27, 40] 16)[k + 1]!
              - (vsOf [5, 12, 5, 27, 40] 16)[k]!)) :=
  ⟨⟨by decide, by rfl⟩,
    index_offset_after_item [5, 12, 5, 27, 40] 16 2 ⟨[41, 222, 208], [(27, 15)], 5, 16, 3⟩
      (by decide) (by rfl) (27, 15) (by decide)⟩

theorem sortDedup_append_self (l : List Nat) : sortDedup (l ++ l) = sortDedup l := by
  have h1 := sortDedup_pairwise (l ++ l)
  have h2 := sortDedup_pairwise l
  have hn1 : (sortDedup (l ++ l)).Nodup := h1.imp (fun h => Nat.ne_of_lt h)
  have hn2 : (sortDedup l).Nodup := h2.imp (fun h => Nat.ne_of_lt h)
  have hfin : (sortDedup (l ++ l)).toFinset = (sortDedup l).toFinset := by
    ext x
    simp only [List.mem_toFinset, sortDedup_mem, List.mem_append]
    tauto
  exact List.eq_of_perm_of_sorted
    (List.perm_of_nodup_nodup_toFinset_eq hn1 hn2 hfin)
    (h1.imp (fun h => le_of_lt h)) (h2.imp (fun h => le_of_lt h))

theorem finishB_payload_index (b1 b2 : GCSBuilder)
    (hp : b1.p = b2.p) (hg : b1.index_granularity = b2.index_granularity)
    (hov1 : b1.values.length * b1.p < 2 ^ 64)
    (hov2 : b2.values.length * b2.p < 2 ^ 64)
    (hz : (b1.values.length * b1.p = 0 ∧ b1.values ≠ [])
      ↔ (b2.values.length * b2.p = 0 ∧ b2.values ≠ []))
    (hvs : sortDedup (b1.values.map (· % (b1.values.length * b1.p)))
      = sortDedup (b2.values.map (· % (b2.values.length * b2.p)))) :
    (finishB b1).map (fun f => (f.payload, f.index))
      = (finishB b2).map (fun f => (f.payload, f.index)) := by
  simp only [finishB]
  rw [if_neg (show ¬ 2 ^ 64 ≤ b1.values.length * b1.p from by omega),
    if_neg (show ¬ 2 ^ 64 ≤ b2.values.length * b2.p from by omega)]
  by_cases hc : b1.values.length * b1.p = 0 ∧ b1.values ≠ []
  · rw [if_pos hc, if_pos (hz.mp hc)]
  · rw [if_neg hc, if_neg (fun h => hc (hz.mpr h))]
    by_cases hgz : b1.index_granularity = 0
    · rw [if_pos hgz, if_pos (hg ▸ hgz)]
    · rw [if_neg hgz, if_neg (show ¬ b2.index_granularity = 0 from hg ▸ hgz)]
      have hscr : encodeAll b1.p (clog2 b1.p) b1.index_granularity
          (sortDedup (b1.values.map (· % (b1.values.length * b1.p)))) 0 0 0 wInit []
        = encodeAll b2.p (clog2 b2.p) b2.index_granularity
          (sortDedup (b2.values.map (· % (b2.values.length * b2.p)))) 0 0 0 wInit [] := by
        rw [hvs, hp, hg]
      rw [hscr]
      cases hE : encodeAll b2.p (clog2 b2.p) b2.index_granularity
          (sortDedup (b2.values.map (· % (b2.values.length * b2.p)))) 0 0 0 wInit [] with
      | error e => rfl
      | ok r =>
        simp only
        by_cases h8 : (r.2.2.1 + (flushW r.2.1).2.2) % 8 ≠ 0
        · rw [if_pos h8, if_pos h8]
        · rw [if_neg h8, if_neg h8]
          rfl

/-- Counterexample to C7 as stated: building from `[20]` and from `[20, 20]`
with `P = 16`, `G = 1` produces different payloads (`[0x20]` vs `[0x90]`),
because `finish` reassigns `n := values.len()` *before* deduplication, so the
duplicate changes the reduction modulus `n * p` from 16 to 32. -/
theorem dedup_idempotence_cex :
    (buildGCS [20] 16 1).map (fun f => (f.payload, f.index))
      ≠ (buildGCS [20, 20] 16 1).map (fun f => (f.payload, f.index)) := by decide

/-- C7 (amended): dedup idempotence does not hold unconditionally, because the
reduction modulus `n * p` uses the pre-dedup length; it does hold whenever no
value is wrapped by either modulus, i.e. when every element of `S` is below
`|S| * P`: then building from `S` and from `S ++ S` agrees on payload and
index (the footer `n` still differs). -/
theorem dedup_idempotent_build (S : List Nat) (p g : Nat)
    (h64 : 2 * (S.length * p) < 2 ^ 64) (hlt : ∀ x ∈ S, x < S.length * p) :
    (buildGCS S p g).map (fun f => (f.payload, f.index))
      = (buildGCS (S ++ S) p g).map (fun f => (f.payload, f.index)) := by
  have hlen2 : (S ++ S).length = 2 * S.length := by
    simp [List.length_append]
    ring
  have h1 : S.length * p < 2 ^ 64 := by omega
  have h2 : (S ++ S).length * p < 2 ^ 64 := by
    rw [hlen2, Nat.mul_assoc]
    omega
  rw [buildGCS_eq S p g h1, buildGCS_eq (S ++ S) p g h2]
  have hmapa : S.map (· % (S.length * p)) = S := by
    have hcong : ∀ x ∈ S, x % (S.length * p) = id x :=
      fun x hx => Nat.mod_eq_of_lt (hlt x hx)
    rw [List.map_congr_left hcong, List.map_id]
  have hmapb : (S ++ S).map (· % ((S ++ S).length * p)) = S ++ S := by
    have hcong : ∀ x ∈ S ++ S, x % ((S ++ S).length * p) = id x := by
      intro x hx
      have hxS : x ∈ S := by
        rcases List.mem_append.mp hx with h | h <;> exact h
      apply Nat.mod_eq_of_lt
      have hle : S.length * p ≤ (S ++ S).length * p := by
        rw [hlen2, Nat.mul_assoc]
        omega
      exact lt_of_lt_of_le (hlt x hxS) hle
    rw [List.map_congr_left hcong, List.map_id]
  apply finishB_payload_index
  · rfl
  · rfl
  · show S.length * p < 2 ^ 64
    exact h1
  · show (S ++ S).length * p < 2 ^ 64
    exact h2
  · show (S.length * p = 0 ∧ S ≠ []) ↔ ((S ++ S).length * p = 0 ∧ S ++ S ≠ [])
    rw [hlen2, Nat.mul_assoc]
    constructor
    · rintro ⟨ha, hb⟩
      refine ⟨by omega, ?_⟩
      intro hab
      exact hb (List.append_eq_nil.mp hab).1
    · rintro ⟨ha, hb⟩
      refine ⟨by omega, ?_⟩
      intro hab
      rw [hab] at hb
      exact hb rfl
  · show sortDedup (S.map (· % (S.length * p)))
      = sortDedup ((S ++ S).map (· % ((S ++ S).length * p)))
    rw [hmapa, hmapb, sortDedup_append_self]

/-- Concrete instance of `dedup_idempotent_build`: `S = [5, 12]`, `P = 16`,
`G = 1`. -/
theorem dedup_idempotent_build_witness :
    (2 * ([5, 12].length * 16) < 2 ^ 64 ∧ ∀ x ∈ [5, 12], x < [5, 12].length * 16) ∧
    (buildGCS [5, 12] 16 1).map (fun f => (f.payload, f.index))
      = (buildGCS ([5, 12] ++ [5, 12]) 16 1).map (fun f => (f.payload, f.index)) :=
  ⟨⟨by decide, by decide⟩, dedup_idempotent_build [5, 12] 16 1 (by decide) (by decide)⟩

/-- Counterexample to C8 as stated: the build from `[5, 12, 5, 27]` with
`P = 16`, `G = 2` does not produce the claimed bytes `0x29, 0x7B, 0x80` nor
the claimed footer `N = 3`, `end_of_data = 3`. -/
theorem worked_example_cex :
    (buildGCS [5, 12, 5, 27] 16 2).map
        (fun f => (f.payload, f.n, f.endOfData, f.index.length))
      ≠ .ok ([0x29, 0x7B, 0x80], 3, 3, 1) := by decide

/-- C8 (amended): building with `N = 4`, `P = 16`, `G = 2` from
`[5, 12, 5, 27]` concatenates the codewords `00101 00111 01111` (15 bits),
pads 1 bit, and yields the two bytes `0x29, 0xDE`; the footer records the
pre-dedup count `N = 4` (not 3), `P = 16`, `end_of_data = 2` bytes (not 3),
and `index_len = 1` (the single checkpoint `(27, 15)` at `i = 2`). -/
theorem worked_example_amended :
    buildGCS [5, 12, 5, 27] 16 2 = .ok ⟨[0x29, 0xDE], [(27, 15)], 4, 16, 2⟩ := by decide

/-- Counterexample to C9 as stated: `GCSBuilder::new` accepts both
`index_granularity = 0` and `P = 0` (it checks nothing but the `n * p`
overflow), instead of failing at construction. -/
theorem new_no_validation_cex :
    (newGCSBuilder [] 4 16 0).isSome ∧ (newGCSBuilder [] 4 0 2).isSome := by decide

/-- C9 (amended): `GCSBuilder::new` validates only that `n * p` fits in a
`u64`; a zero granularity (and likewise `P = 0`) is accepted at construction,
and the zero granularity only fails later, inside `finish`, at the division
`values.len() / index_granularity`. -/
theorem new_defers_granularity_check (n p g : Nat) (S : List Nat)
    (hnp : n * p < 2 ^ 64) (h64 : S.length * p < 2 ^ 64)
    (hnz : S.length * p = 0 → S = []) :
    (newGCSBuilder [] n p 0).isSome ∧ (newGCSBuilder [] n 0 g).isSome ∧
    buildGCS S p 0 = .error .granZero := by
  refine ⟨?_, ?_, ?_⟩
  · simp only [newGCSBuilder]
    rw [if_pos hnp]
    rfl
  · simp only [newGCSBuilder]
    rw [if_pos (show n * 0 < 2 ^ 64 from by omega)]
    rfl
  · rw [buildGCS_eq S p 0 h64]
    simp only [finishB]
    rw [if_neg (show ¬ 2 ^ 64 ≤ S.length * p from by omega)]
    rw [if_neg (show ¬ (S.length * p = 0 ∧ S ≠ []) from by
      rintro ⟨ha, hb⟩
      exact hb (hnz ha))]
    simp

/-- Concrete instance of `new_defers_granularity_check`: `n = 4`, `P = 16`,
`G = 2`, `S = [5]`. -/
theorem new_defers_granularity_check_witness :
    (4 * 16 < 2 ^ 64 ∧ [5].length * 16 < 2 ^ 64 ∧ ([5].length * 16 = 0 → [5] = [])) ∧
    (newGCSBuilder [] 4 16 0).isSome ∧ (newGCSBuilder [] 4 0 2).isSome ∧
    buildGCS [5] 16 0 = .error .granZero :=
  ⟨⟨by decide, by decide, by decide⟩,
    new_defers_granularity_check 4 16 2 [5] (by decide) (by decide) (by decide)⟩

/-- C10: `add` never fails and performs no I/O: after any sequence of `add`
calls the byte sink is untouched and the declared `n`, `p` and granularity are
unchanged; the only state change is appending the raw, unreduced values to the
in-memory vector (reduction mod `N * P` happens only in `finish`). -/
theorem add_frame_effect (b : GCSBuilder) (hs : List Nat) :
    (hs.foldl addValue b).io = b.io ∧
    (hs.foldl addValue b).n = b.n ∧
    (hs.foldl addValue b).p = b.p ∧
    (hs.foldl addValue b).index_granularity = b.index_granularity ∧
    (hs.foldl addValue b).values = b.values ++ hs := by
  rw [foldl_addValue]
  exact ⟨rfl, rfl, rfl, rfl, rfl⟩
